import Mathlib

/-
Verification of the Debian sysroot creator (build/linux/sysroot_scripts/sysroot_creator.py).

The development shallowly embeds the script's core pipeline:
 * package-index verification and parsing (verify_package_listing,
   generate_package_list_dist_repo),
 * merging of package records and transitive dependency closure
   (generate_package_list, add_package_dependencies),
 * package installation with hash verification and /usr/share pruning
   (install_into_sysroot),
 * symlink normalization over a filesystem model with symlink resolution
   (cleanup_jail_symlinks),
 * pruning of executables and static archives (removing_unnecessary_files),
 * timestamp snapshot and restore (record_metadata / restore_metadata).

External effects (network, gpgv, dpkg-deb, the real file system) are modelled
by explicit inputs/oracles; Python exceptions are modelled by Except PyError.
String operations are implemented over List Char so that all definitions
reduce in the kernel.
-/

namespace SysrootCreator

/-! ## String utilities (models of the Python string operations used) -/

/-- If l starts with sep, return the remainder of l after sep. -/
def takeAfterSep (sep l : List Char) : Option (List Char) :=
  match sep, l with
  | [], l2 => some l2
  | _ :: _, [] => none
  | c :: cs, d :: ds => if c = d then takeAfterSep cs ds else none

/-- Worker for splitting a character list on a nonempty separator; fuel is
at least the length of the list being split. -/
def splitListAux (sep : List Char) : Nat → List Char → List Char → List (List Char)
  | 0, rest, acc => [acc.reverse ++ rest]
  | _ + 1, [], acc => [acc.reverse]
  | fuel + 1, d :: ds, acc =>
    match takeAfterSep sep (d :: ds) with
    | some rest => acc.reverse :: splitListAux sep fuel rest []
    | none => splitListAux sep fuel ds (d :: acc)

/-- Model of Python str.split(sep): all occurrences, keeping empty pieces. -/
def mySplitOn (sep s : String) : List String :=
  if sep = "" then [s]
  else (splitListAux sep.data s.data.length s.data []).map (fun l => String.mk l)

/-- Model of Python str.startswith. -/
def myStartsWith (s pre : String) : Bool := pre.data.isPrefixOf s.data

/-- Model of Python str.endswith. -/
def myEndsWith (s suf : String) : Bool := suf.data.reverse.isPrefixOf s.data.reverse

/-- Model of Python sep.join(list). -/
def myIntercalate (sep : String) : List String → String
  | [] => ""
  | x :: xs => xs.foldl (fun acc y => acc ++ sep ++ y) x

/-- Model of Python str.splitlines() for strings whose only line separator is
a newline character: like split on newline, but a trailing newline does not
contribute a final empty line, and the empty string has no lines. -/
def pySplitlines (s : String) : List String :=
  if s = "" then []
  else
    let ls := mySplitOn ("\n") s
    if ls.getLast? = some "" then ls.dropLast else ls

/-- First whitespace-separated token of a string: Python s.split()[0],
returning "" for a tokenless string (where Python would raise IndexError;
the script never applies this to a tokenless string). -/
def pyFirstToken (s : String) : String :=
  ((mySplitOn (" ") s).filter (fun t => t ≠ "")).headD ""

/-! ## Python-level error model -/

/-- Errors raised by the modelled script paths. -/
inductive PyError where
  /-- Python KeyError on a mapping access. -/
  | keyError (key : String)
  /-- The final "Missing packages: ..." Exception of generate_package_list,
  carrying the missing names. -/
  | missingPackages (names : List String)
  /-- Python ValueError. -/
  | valueError (msg : String)
  /-- A plain Python Exception or OSError with a message. -/
  | exception (msg : String)
  /-- Python RecursionError from exceeding the recursion limit. -/
  | recursionError
  /-- subprocess.CalledProcessError from a checked external command. -/
  | calledProcessError (cmd : String)
deriving DecidableEq, Repr

/-! ## Fixed configuration tables of the script -/

def lookupStr (l : List (String × String)) (k : String) : Option String :=
  (l.find? (fun e => e.1 == k)).map (fun e => e.2)

def RELEASES_TABLE : List (String × String) :=
  [("amd64", "bullseye"), ("i386", "bullseye"), ("armhf", "bullseye"),
   ("arm64", "bullseye"), ("mipsel", "bullseye"), ("mips64el", "bullseye"),
   ("ppc64el", "bullseye"), ("riscv64", "trixie"), ("loong64", "sid")]

/-- RELEASES[arch]; none models a KeyError. -/
def RELEASES (arch : String) : Option String := lookupStr RELEASES_TABLE arch

def GCC_VERSIONS_TABLE : List (String × Nat) :=
  [("bullseye", 10), ("trixie", 12), ("sid", 13)]

/-- GCC_VERSIONS[release]; none models a KeyError. -/
def GCC_VERSIONS (release : String) : Option Nat :=
  (GCC_VERSIONS_TABLE.find? (fun e => e.1 == release)).map (fun e => e.2)

def TRIPLES_TABLE : List (String × String) :=
  [("amd64", "x86_64-linux-gnu"), ("i386", "i386-linux-gnu"),
   ("armhf", "arm-linux-gnueabihf"), ("arm64", "aarch64-linux-gnu"),
   ("mipsel", "mipsel-linux-gnu"), ("mips64el", "mips64el-linux-gnuabi64"),
   ("ppc64el", "powerpc64le-linux-gnu"), ("riscv64", "riscv64-linux-gnu"),
   ("loong64", "loongarch64-linux-gnu")]

/-- TRIPLES[arch]; none models a KeyError. -/
def TRIPLES (arch : String) : Option String := lookupStr TRIPLES_TABLE arch

def ARCHIVE_TIMESTAMP : String := "20250129T203412Z"

def ARCHIVE_URL : String :=
  "https://snapshot.debian.org/archive/debian/" ++ ARCHIVE_TIMESTAMP ++ "/"

/-- The requested development packages (dependencies are resolved automatically). -/
def DEBIAN_PACKAGES : List String := ["libc6-dev"]

/-- The skip-list of known-broken dependencies inside generate_package_list. -/
def BROKEN_DEPS : List String := ["libgcc1", "qt6-base-abi", "libc-dev"]

/-- The recursion depth budget of add_package_dependencies: Python's default
recursion limit; exceeding it raises RecursionError. -/
def RECURSION_LIMIT : Nat := 1000

/-! ## Package records and the merged name-to-record map

A package record (one blank-line-delimited block of a Packages index) is the
Python dict produced by dict(line.split(": ", 1) for line in ...): an ordered
association list where, on duplicate keys, the last pair wins. -/

/-- A parsed package record: key/value pairs in file order. -/
abbrev Meta := List (String × String)

/-- Lookup in a record with Python-dict semantics (last duplicate wins). -/
def metaGet (m : Meta) (k : String) : Option String :=
  (m.reverse.find? (fun e => e.1 == k)).map (fun e => e.2)

/-- The merged name-to-record map package_meta: a Python dict, i.e. an
insertion-ordered association list with unique keys by construction. -/
abbrev PMap := List (String × Meta)

/-- Python dict lookup on the merged map. -/
def pmapGet (pm : PMap) (k : String) : Option Meta :=
  (pm.find? (fun e => e.1 == k)).map (fun e => e.2)

/-- Python dict assignment d[k] = v: overwrite in place if the key exists
(keeping its position), otherwise append. -/
def pmapSet (pm : PMap) (k : String) (v : Meta) : PMap :=
  if (pm.find? (fun e => e.1 == k)).isSome then
    pm.map (fun e => if e.1 == k then (k, v) else e)
  else pm ++ [(k, v)]

/-- Strip a version requirement from a "Provides" token: provides.split()[0]. -/
def providesName (tok : String) : String := pyFirstToken tok

/-- Strip version constraint and architecture qualifier from a dependency
token: dep.split()[0].split(":")[0]. -/
def stripDepToken (dep : String) : String :=
  ((mySplitOn (":") (pyFirstToken dep))).headD ""

/-- Add the "Provides" aliases of a record to the map: for each alias (with
version requirement stripped), skip it when the name is already present,
otherwise append it bound to this record. -/
def addProvides (pm : PMap) (meta : Meta) : PMap :=
  match metaGet meta ("Provides") with
  | none => pm
  | some pv =>
    (mySplitOn (", ") pv).foldl
      (fun acc tok =>
        let aname := providesName tok
        if (pmapGet acc aname).isSome then acc else acc ++ [(aname, meta)])
      pm

/-- Merge one record into the map: package_meta[meta["Package"]] = meta, then
process its "Provides" aliases. KeyError when the record has no "Package". -/
def mergeMeta (pm : PMap) (meta : Meta) : Except PyError PMap :=
  match metaGet meta ("Package") with
  | none => Except.error (PyError.keyError ("Package"))
  | some name => Except.ok (addProvides (pmapSet pm name meta) meta)

/-- Merge all records of all sources into one map, in order. -/
def buildPackageMeta (metas : List Meta) : Except PyError PMap :=
  metas.foldlM mergeMeta []

/-! ## Dependency closure (add_package_dependencies) -/

/-- The resolved mapping package_dict from download URL to SHA256, a Python
dict built by insertion (keys unique, insertion ordered). -/
abbrev PkgDict := List (String × String)

def pkgDictHas (d : PkgDict) (url : String) : Bool :=
  (d.find? (fun e => e.1 == url)).isSome

/-- Model of add_package_dependencies: skip names on the broken-deps
skip-list; look the package up in the merged map (KeyError when absent);
form its download URL; stop if the URL is already resolved; record
(URL, SHA256); then recurse over the "Depends" tokens with version
constraints and architecture qualifiers stripped. The fuel models Python's
recursion limit. -/
def add_package_dependencies (pm : PMap) : Nat → String → PkgDict → Except PyError PkgDict
  | 0, _, _ => Except.error PyError.recursionError
  | fuel + 1, package, dict =>
    if package ∈ BROKEN_DEPS then Except.ok dict
    else
      match pmapGet pm package with
      | none => Except.error (PyError.keyError package)
      | some meta =>
        match metaGet meta ("Filename") with
        | none => Except.error (PyError.keyError ("Filename"))
        | some fn =>
          let url := ARCHIVE_URL ++ fn
          if pkgDictHas dict url then Except.ok dict
          else
            match metaGet meta ("SHA256") with
            | none => Except.error (PyError.keyError ("SHA256"))
            | some sha =>
              match metaGet meta ("Depends") with
              | none => Except.ok (dict ++ [(url, sha)])
              | some deps =>
                (mySplitOn (", ") deps).foldlM
                  (fun d tok => add_package_dependencies pm fuel (stripDepToken tok) d)
                  (dict ++ [(url, sha)])

/-- The initial "missing" set: a set of requested names, modelled as a
duplicate-free list (membership is what the script observes). -/
def initMissing (roots : List String) : List String :=
  roots.foldl (fun acc r => if acc.contains r then acc else acc ++ [r]) []

/-- One step of the scan over the merged map: when the key is a requested
name still missing, remove it from the missing set and run the dependency
closure from it. -/
def resolveStep (pm : PMap) (st : List String × PkgDict) (e : String × Meta) :
    Except PyError (List String × PkgDict) :=
  if st.1.contains e.1 then do
    let d ← add_package_dependencies pm RECURSION_LIMIT e.1 st.2
    Except.ok (st.1.filter (fun n => n ≠ e.1), d)
  else Except.ok st

/-- The resolution core of generate_package_list: scan the merged map in
insertion order, closing over each requested name found; afterwards fail
listing the names never found. -/
def resolvePackages (roots : List String) (pm : PMap) : Except PyError PkgDict := do
  let res ← pm.foldlM (resolveStep pm) ((initMissing roots, ([] : PkgDict)))
  if res.1 = [] then Except.ok res.2
  else Except.error (PyError.missingPackages res.1)

/-- generate_package_list for one architecture, over already-parsed index
records: merge the records of all sources, then resolve the requested
packages (DEBIAN_PACKAGES plus the release-derived libstdc++ companion). -/
def generate_package_list (arch : String) (metas : List Meta) : Except PyError PkgDict := do
  let pm ← buildPackageMeta metas
  match RELEASES arch with
  | none => Except.error (PyError.keyError arch)
  | some release =>
    match GCC_VERSIONS release with
    | none => Except.error (PyError.keyError release)
    | some gcc =>
      resolvePackages (DEBIAN_PACKAGES ++ ["libstdc++-" ++ toString gcc ++ "-dev"]) pm

/-! ## Lemmas about the map and merge operations -/

lemma pmapGet_append_of_isSome (pm l : PMap) (n : String)
    (h : (pmapGet pm n).isSome) : pmapGet (pm ++ l) n = pmapGet pm n := by
  unfold pmapGet at *
  rw [List.find?_append]
  cases hf : pm.find? (fun e => e.1 == n) with
  | none => rw [hf] at h; simp at h
  | some e => simp [hf]

lemma find?_pmapSetMap_ne (k n : String) (v : Meta) (h : k ≠ n) :
    ∀ pm : PMap,
      (pm.map (fun e => if e.1 == k then (k, v) else e)).find? (fun e => e.1 == n) =
        pm.find? (fun e => e.1 == n) := by
  intro pm
  induction pm with
  | nil => simp
  | cons e rest ih =>
    by_cases hek : e.1 = k
    · have hen : ¬ (e.1 = n) := by rw [hek]; exact h
      simp only [List.map_cons, hek, beq_self_eq_true, if_true]
      rw [List.find?_cons_of_neg _ (by simp [h]), List.find?_cons_of_neg _ (by simp [hen])]
      exact ih
    · simp only [List.map_cons, if_neg (by simp [hek] : ¬ ((e.1 == k) = true))]
      by_cases hen : e.1 = n
      · rw [List.find?_cons_of_pos _ (by simp [hen]), List.find?_cons_of_pos _ (by simp [hen])]
      · rw [List.find?_cons_of_neg _ (by simp [hen]), List.find?_cons_of_neg _ (by simp [hen])]
        exact ih

lemma pmapGet_set_ne (pm : PMap) (k : String) (v : Meta) (n : String) (h : k ≠ n) :
    pmapGet (pmapSet pm k v) n = pmapGet pm n := by
  unfold pmapSet
  split
  · unfold pmapGet
    rw [find?_pmapSetMap_ne k n v h pm]
  · unfold pmapGet
    rw [List.find?_append]
    cases hf : pm.find? (fun e => e.1 == n) with
    | none => simp [hf, h]
    | some e => simp [hf]

lemma addProvides_preserves (pm : PMap) (meta : Meta) (n : String)
    (h : (pmapGet pm n).isSome) : pmapGet (addProvides pm meta) n = pmapGet pm n := by
  unfold addProvides
  cases metaGet meta ("Provides") with
  | none => rfl
  | some pv =>
    have key : ∀ (toks : List String) (acc : PMap),
        pmapGet acc n = pmapGet pm n →
        pmapGet (toks.foldl
          (fun acc tok =>
            let aname := providesName tok
            if (pmapGet acc aname).isSome then acc else acc ++ [(aname, meta)]) acc) n
          = pmapGet pm n := by
      intro toks
      induction toks with
      | nil => intro acc hacc; exact hacc
      | cons t ts ih =>
        intro acc hacc
        simp only [List.foldl_cons]
        by_cases hs : (pmapGet acc (providesName t)).isSome
        · rw [if_pos hs]; exact ih acc hacc
        · rw [if_neg hs]
          exact ih _ (by rw [pmapGet_append_of_isSome _ _ n (by rw [hacc]; exact h)]; exact hacc)
    exact key _ pm rfl

/-- C9: when a package record is merged into the name-to-record map, a
"Provides" alias token (after stripping version requirements) never
overwrites an entry already present in the map — whether that entry came
from an earlier direct name or an earlier alias, it is left unchanged
(first writer wins for provides aliases). The hypothesis excludes the
record's own direct name, which the merge writes unconditionally before
aliases are considered. -/
theorem c9_provides_never_overwrites (pm : PMap) (meta : Meta) (pm2 : PMap) (n : String)
    (hmerge : mergeMeta pm meta = Except.ok pm2)
    (hpresent : (pmapGet pm n).isSome)
    (hname : metaGet meta ("Package") ≠ some n) :
    pmapGet pm2 n = pmapGet pm n := by
  unfold mergeMeta at hmerge
  cases hp : metaGet meta ("Package") with
  | none => rw [hp] at hmerge; exact absurd hmerge (by simp)
  | some name =>
    rw [hp] at hmerge
    have hpm2 : pm2 = addProvides (pmapSet pm name meta) meta := by
      injection hmerge with h2; exact h2.symm
    have hkn : name ≠ n := by
      intro he; rw [he] at hp; exact hname hp
    rw [hpm2, addProvides_preserves _ _ n (by rw [pmapGet_set_ne pm name meta n hkn]; exact hpresent),
        pmapGet_set_ne pm name meta n hkn]

/-- A one-entry map for the c9 witness. -/
def c9pm : PMap := [("a", [("Package", "a"), ("Filename", "fa")])]

/-- A record for package b that provides a, for the c9 witness. -/
def c9meta : Meta := [("Package", "b"), ("Provides", "a (= 1.0)")]

/-- The merge result for the c9 witness. -/
def c9pm2 : PMap := c9pm ++ [("b", c9meta)]

/-- Witness for c9_provides_never_overwrites at a concrete input: merging a
record for package b that provides a, into a map already containing a. -/
theorem c9_provides_never_overwrites_witness :
    mergeMeta c9pm c9meta = Except.ok c9pm2 ∧
    pmapGet c9pm2 ("a") = pmapGet c9pm ("a") :=
  ⟨rfl, c9_provides_never_overwrites c9pm c9meta c9pm2 ("a") rfl (by decide) (by decide)⟩

/-- C3: dependency-closure resolution is deterministic and idempotent — for a
fixed architecture and fixed parsed index content, two runs of
generate_package_list return equal results, and in particular resolved
(URL, hash) sets with identical membership. -/
theorem c3_closure_deterministic (arch : String) (metas : List Meta)
    (r1 r2 : Except PyError PkgDict)
    (h1 : r1 = generate_package_list arch metas)
    (h2 : r2 = generate_package_list arch metas) :
    r1 = r2 ∧ ∀ d1 d2, r1 = Except.ok d1 → r2 = Except.ok d2 →
      ∀ url sha, (url, sha) ∈ d1 ↔ (url, sha) ∈ d2 := by
  subst h1; subst h2
  refine ⟨rfl, ?_⟩
  intro d1 d2 hd1 hd2 url sha
  rw [hd1] at hd2
  injection hd2 with h
  rw [h]

/-- A two-record index on which resolution succeeds. -/
def c3Metas : List Meta :=
  [[("Package", "libc6-dev"), ("Filename", "pool/libc6-dev.deb"), ("SHA256", "aa")],
   [("Package", "libstdc++-10-dev"), ("Filename", "pool/libstdcpp-dev.deb"), ("SHA256", "bb")]]

/-- The resolved dictionary for c3Metas on amd64. -/
def c3Dict : PkgDict :=
  [(ARCHIVE_URL ++ "pool/libc6-dev.deb", "aa"),
   (ARCHIVE_URL ++ "pool/libstdcpp-dev.deb", "bb")]

/-- Witness for c3_closure_deterministic at a concrete index. -/
theorem c3_closure_deterministic_witness :
    generate_package_list ("amd64") c3Metas = generate_package_list ("amd64") c3Metas ∧
    ((ARCHIVE_URL ++ "pool/libc6-dev.deb", "aa") ∈ c3Dict ↔
      (ARCHIVE_URL ++ "pool/libc6-dev.deb", "aa") ∈ c3Dict) :=
  ⟨(c3_closure_deterministic ("amd64") c3Metas
      (generate_package_list ("amd64") c3Metas) (generate_package_list ("amd64") c3Metas)
      rfl rfl).1,
   (c3_closure_deterministic ("amd64") c3Metas
      (generate_package_list ("amd64") c3Metas) (generate_package_list ("amd64") c3Metas)
      rfl rfl).2 c3Dict c3Dict rfl rfl _ ("aa")⟩

/-! ## Lemmas about the resolution scan and its error reporting -/

lemma foldlM_deps_not_missing (pm : PMap) (fuel : Nat)
    (ih : ∀ pkg dict ns, add_package_dependencies pm fuel pkg dict ≠
      Except.error (PyError.missingPackages ns)) :
    ∀ (l : List String) (d : PkgDict) (ns : List String),
      l.foldlM (fun d tok => add_package_dependencies pm fuel (stripDepToken tok) d) d ≠
        Except.error (PyError.missingPackages ns) := by
  intro l
  induction l with
  | nil =>
    intro d ns h
    have h2 : (Except.ok d : Except PyError PkgDict) =
        Except.error (PyError.missingPackages ns) := h
    simp at h2
  | cons t ts ihl =>
    intro d ns h
    rw [List.foldlM_cons] at h
    cases he : add_package_dependencies pm fuel (stripDepToken t) d with
    | error e =>
      rw [he] at h
      have h2 : (Except.error e : Except PyError PkgDict) =
          Except.error (PyError.missingPackages ns) := h
      injection h2 with h3
      exact ih _ _ _ (he.trans (by rw [h3]))
    | ok d2 =>
      rw [he] at h
      exact ihl d2 ns h

/-- add_package_dependencies never raises the aggregated missing-packages
error: a lookup failure during closure is a KeyError for a single name. -/
lemma add_deps_not_missing (pm : PMap) :
    ∀ (fuel : Nat) (pkg : String) (dict : PkgDict) (ns : List String),
      add_package_dependencies pm fuel pkg dict ≠
        Except.error (PyError.missingPackages ns) := by
  intro fuel
  induction fuel with
  | zero => intro pkg dict ns h; exact absurd h (by simp [add_package_dependencies])
  | succ f ih =>
    intro pkg dict ns h
    unfold add_package_dependencies at h
    by_cases hb : pkg ∈ BROKEN_DEPS
    · rw [if_pos hb] at h; exact absurd h (by simp)
    · rw [if_neg hb] at h
      cases hg : pmapGet pm pkg with
      | none => simp only [hg] at h; simp at h
      | some meta =>
        simp only [hg] at h
        cases hfn : metaGet meta ("Filename") with
        | none => simp only [hfn] at h; simp at h
        | some fn =>
          simp only [hfn] at h
          by_cases hd : pkgDictHas dict (ARCHIVE_URL ++ fn) = true
          · simp [hd] at h
          · simp only [hd, if_false, Bool.false_eq_true] at h
            cases hsha : metaGet meta ("SHA256") with
            | none => simp only [hsha] at h; simp at h
            | some sha =>
              simp only [hsha] at h
              cases hdep : metaGet meta ("Depends") with
              | none => simp only [hdep] at h; simp at h
              | some deps =>
                simp only [hdep] at h
                exact foldlM_deps_not_missing pm f (fun p d2 ns2 => ih p d2 ns2) _ _ _ h

/-- The scan over the merged map never raises the missing-packages error
itself; that error is only raised by the final check. -/
lemma resolve_fold_not_missing (pm : PMap) :
    ∀ (l : List (String × Meta)) (st : List String × PkgDict) (ns : List String),
      l.foldlM (resolveStep pm) st ≠ Except.error (PyError.missingPackages ns) := by
  intro l
  induction l with
  | nil =>
    intro st ns h
    have h2 : (Except.ok st : Except PyError (List String × PkgDict)) =
        Except.error (PyError.missingPackages ns) := h
    simp at h2
  | cons e es ih =>
    intro st ns h
    rw [List.foldlM_cons] at h
    cases he : resolveStep pm st e with
    | error er =>
      rw [he] at h
      have h2 : (Except.error er : Except PyError (List String × PkgDict)) =
          Except.error (PyError.missingPackages ns) := h
      injection h2 with h3
      rw [h3] at he
      unfold resolveStep at he
      by_cases hc : st.1.contains e.1 = true
      · rw [if_pos hc] at he
        cases ha : add_package_dependencies pm RECURSION_LIMIT e.1 st.2 with
        | error e2 =>
          rw [ha] at he
          have he2 : (Except.error e2 : Except PyError (List String × PkgDict)) =
              Except.error (PyError.missingPackages ns) := he
          injection he2 with h4
          exact add_deps_not_missing pm _ _ _ _ (ha.trans (by rw [h4]))
        | ok d2 =>
          rw [ha] at he
          have he2 : (Except.ok (st.1.filter (fun n => n ≠ e.1), d2) :
              Except PyError (List String × PkgDict)) =
              Except.error (PyError.missingPackages ns) := he
          simp at he2
      · rw [if_neg hc] at he
        have he2 : (Except.ok st : Except PyError (List String × PkgDict)) =
            Except.error (PyError.missingPackages ns) := he
        simp at he2
    | ok st2 =>
      rw [he] at h
      exact ih st2 ns h

/-- Characterization of the missing set after a successful scan: a name is
still missing exactly when it was missing initially and no scanned map key
equals it. -/
lemma resolve_fold_missing_iff (pm : PMap) :
    ∀ (l : List (String × Meta)) (miss : List String) (d : PkgDict)
      (miss2 : List String) (d2 : PkgDict),
      l.foldlM (resolveStep pm) (miss, d) = Except.ok (miss2, d2) →
      ∀ n, n ∈ miss2 ↔ (n ∈ miss ∧ ∀ e ∈ l, e.1 ≠ n) := by
  intro l
  induction l with
  | nil =>
    intro miss d miss2 d2 h n
    simp only [List.foldlM_nil] at h
    injection h with h2
    rw [Prod.mk.injEq] at h2
    simp [h2.1.symm]
  | cons e es ih =>
    intro miss d miss2 d2 h n
    rw [List.foldlM_cons] at h
    cases he : resolveStep pm (miss, d) e with
    | error er =>
      rw [he] at h
      have h2 : (Except.error er : Except PyError (List String × PkgDict)) =
          Except.ok (miss2, d2) := h
      simp at h2
    | ok st2 =>
      rw [he] at h
      have h' : es.foldlM (resolveStep pm) st2 = Except.ok (miss2, d2) := h
      clear h
      rename' h' => h
      unfold resolveStep at he
      by_cases hc : (miss, d).1.contains e.1 = true
      · rw [if_pos hc] at he
        cases ha : add_package_dependencies pm RECURSION_LIMIT e.1 (miss, d).2 with
        | error e2 =>
          rw [ha] at he
          have he2 : (Except.error e2 : Except PyError (List String × PkgDict)) =
              Except.ok st2 := he
          simp at he2
        | ok dd =>
          rw [ha] at he
          have he2 : (Except.ok (miss.filter (fun n => n ≠ e.1), dd) :
              Except PyError (List String × PkgDict)) = Except.ok st2 := he
          injection he2 with h2
          rw [← h2] at h
          have := ih _ _ _ _ h n
          rw [this]
          simp only [List.mem_filter, List.forall_mem_cons]
          constructor
          · rintro ⟨⟨hn1, hn2⟩, hn3⟩
            refine ⟨hn1, fun hee => ?_, hn3⟩
            rw [hee] at hn2
            simp at hn2
          · rintro ⟨hn1, hn2, hn3⟩
            refine ⟨⟨hn1, ?_⟩, hn3⟩
            simp only [decide_eq_true_eq]
            intro hq
            exact hn2 (by rw [hq])
      · rw [if_neg hc] at he
        injection he with h2
        rw [← h2] at h
        have hiff := ih _ _ _ _ h n
        rw [hiff]
        have hnotmem : e.1 ∉ miss := by
          intro hm
          exact hc (by simpa [List.contains, List.elem_iff] using hm)
        constructor
        · rintro ⟨hn1, hn2⟩
          exact ⟨hn1, List.forall_mem_cons.mpr ⟨fun hee => hnotmem (hee.symm ▸ hn1), hn2⟩⟩
        · rintro ⟨hn1, hn2⟩
          exact ⟨hn1, (List.forall_mem_cons.mp hn2).2⟩

lemma initMissing_mem (roots : List String) (n : String) :
    n ∈ initMissing roots ↔ n ∈ roots := by
  have key : ∀ (rs : List String) (acc : List String),
      n ∈ rs.foldl (fun acc r => if acc.contains r then acc else acc ++ [r]) acc ↔
        n ∈ acc ∨ n ∈ rs := by
    intro rs
    induction rs with
    | nil => intro acc; simp
    | cons r rest ih =>
      intro acc
      simp only [List.foldl_cons]
      by_cases hc : acc.contains r = true
      · rw [if_pos hc, ih acc]
        have hr : r ∈ acc := by simpa [List.contains, List.elem_iff] using hc
        constructor
        · rintro (h1 | h1)
          · exact Or.inl h1
          · exact Or.inr (List.mem_cons_of_mem r h1)
        · rintro (h1 | h1)
          · exact Or.inl h1
          · rcases List.mem_cons.mp h1 with h2 | h2
            · exact Or.inl (h2 ▸ hr)
            · exact Or.inr h2
      · rw [if_neg hc, ih (acc ++ [r])]
        simp only [List.mem_append, List.mem_singleton, List.mem_cons]
        tauto
  rw [initMissing, key roots []]
  simp

lemma pmapGet_eq_none_iff (pm : PMap) (n : String) :
    pmapGet pm n = none ↔ ∀ e ∈ pm, e.1 ≠ n := by
  unfold pmapGet
  rw [Option.map_eq_none', List.find?_eq_none]
  constructor
  · intro h e he heq
    exact h e he (by simp [heq])
  · intro h e he hb
    exact h e he (by simpa using hb)

/-- C4 (amended): the final missing-packages error, when it is raised, lists
exactly the requested root names absent from the merged map; when every
requested root name is present, the missing-packages error is never raised
(although the closure of a found root may still abort earlier with a
KeyError for a transitive dependency); and a successful resolution implies
every requested root name was present. -/
theorem c4_missing_roots_reported (roots : List String) (pm : PMap) :
    (∀ ns, resolvePackages roots pm = Except.error (PyError.missingPackages ns) →
      ∀ n, n ∈ ns ↔ (n ∈ roots ∧ pmapGet pm n = none))
    ∧ ((∀ n ∈ roots, (pmapGet pm n).isSome) →
      ∀ ns, resolvePackages roots pm ≠ Except.error (PyError.missingPackages ns))
    ∧ (∀ d, resolvePackages roots pm = Except.ok d →
      ∀ n ∈ roots, (pmapGet pm n).isSome) := by
  cases hf : pm.foldlM (resolveStep pm) ((initMissing roots, ([] : PkgDict))) with
  | error e =>
    have hres : resolvePackages roots pm = Except.error e := by
      unfold resolvePackages; rw [hf]; rfl
    refine ⟨?_, ?_, ?_⟩
    · intro ns h
      rw [hres] at h
      injection h with h3
      exact absurd (hf.trans (by rw [h3])) (resolve_fold_not_missing pm pm _ ns)
    · intro _ ns h
      rw [hres] at h
      injection h with h3
      exact absurd (hf.trans (by rw [h3])) (resolve_fold_not_missing pm pm _ ns)
    · intro d h
      rw [hres] at h
      simp at h
  | ok res =>
    have hchar := resolve_fold_missing_iff pm pm (initMissing roots) [] res.1 res.2
      (by rw [hf])
    have hmem : ∀ n, n ∈ res.1 ↔ (n ∈ roots ∧ pmapGet pm n = none) := by
      intro n
      rw [hchar n, initMissing_mem, pmapGet_eq_none_iff]
    have hres : resolvePackages roots pm =
        (if res.1 = [] then Except.ok res.2
         else Except.error (PyError.missingPackages res.1)) := by
      unfold resolvePackages; rw [hf]; rfl
    by_cases hm : res.1 = []
    · rw [if_pos hm] at hres
      refine ⟨?_, ?_, ?_⟩
      · intro ns h
        rw [hres] at h
        simp at h
      · intro _ ns h
        rw [hres] at h
        simp at h
      · intro d _ n hn
        rw [Option.isSome_iff_ne_none]
        intro hnone
        have hmm : n ∈ res.1 := (hmem n).mpr ⟨hn, hnone⟩
        rw [hm] at hmm
        simp at hmm
    · rw [if_neg hm] at hres
      refine ⟨?_, ?_, ?_⟩
      · intro ns h
        rw [hres] at h
        injection h with h3
        injection h3 with h4
        rw [← h4]
        exact hmem
      · intro hall ns _
        rcases List.exists_mem_of_ne_nil res.1 hm with ⟨n, hn⟩
        have hmm := (hmem n).mp hn
        have h5 := hall n hmm.1
        rw [hmm.2] at h5
        simp at h5
      · intro d h
        rw [hres] at h
        simp at h

/-- Roots and map for the c4 amended-claim witness: root y is absent. -/
def c4wRoots : List String := ["x", "y"]

/-- Witness map: only x present, with a self-contained record. -/
def c4wPm : PMap := [("x", [("Package", "x"), ("Filename", "fx"), ("SHA256", "sx")])]

/-- Witness for c4_missing_roots_reported: resolving roots x, y against a map
containing only x raises the missing-packages error listing exactly y. -/
theorem c4_missing_roots_reported_witness :
    resolvePackages c4wRoots c4wPm = Except.error (PyError.missingPackages ["y"]) ∧
    (("y" ∈ ["y"]) ↔ ("y" ∈ c4wRoots ∧ pmapGet c4wPm ("y") = none)) :=
  ⟨rfl, (c4_missing_roots_reported c4wRoots c4wPm).1 ["y"] rfl ("y")⟩

/-- Index for the c4 counterexample: the root libc6-dev is present but has a
dependency b that is absent from the map; the other requested root
libstdc++-10-dev is also absent from the map. -/
def c4CexMetas : List Meta :=
  [[("Package", "libc6-dev"), ("Filename", "pool/libc6-dev.deb"),
    ("SHA256", "aa"), ("Depends", "b")]]

/-- The merged map of c4CexMetas. -/
def c4CexPm : PMap :=
  [("libc6-dev",
    [("Package", "libc6-dev"), ("Filename", "pool/libc6-dev.deb"),
     ("SHA256", "aa"), ("Depends", "b")])]

/-- C4 (counterexample): on amd64 the requested root set is libc6-dev plus
libstdc++-10-dev. Against c4CexMetas, the root libstdc++-10-dev is absent
from the merged map, yet generate_package_list raises KeyError "b" (a
transitive-dependency lookup failure from closing over libc6-dev, which is
scanned before the final missing-roots check) — an error that does not
list the missing root name at all. This refutes the claim that whenever
requested roots are absent, the raised error lists every missing name. -/
theorem c4_counterexample :
    generate_package_list ("amd64") c4CexMetas = Except.error (PyError.keyError ("b")) ∧
    buildPackageMeta c4CexMetas = Except.ok c4CexPm ∧
    pmapGet c4CexPm ("libstdc++-10-dev") = none ∧
    (∀ ns : List String, PyError.keyError ("b") ≠ PyError.missingPackages ns) :=
  ⟨rfl, rfl, rfl, fun ns h => by injection h⟩

/-- C10: during dependency closure, a dependency token whose stripped name is
not on the broken-deps skip-list and is absent from the merged map makes
add_package_dependencies fail with a KeyError for that single name — which
is never the aggregated missing-packages error reserved for requested
roots. Stated for a package whose first dependency token is the failing
one. -/
theorem c10_transitive_dep_keyerror (pm : PMap) (package : String) (meta : Meta)
    (fn sha deps d0 : String) (rest : List String) (fuel : Nat) (dict : PkgDict)
    (hb : package ∉ BROKEN_DEPS)
    (hg : pmapGet pm package = some meta)
    (hfn : metaGet meta ("Filename") = some fn)
    (hurl : pkgDictHas dict (ARCHIVE_URL ++ fn) = false)
    (hsha : metaGet meta ("SHA256") = some sha)
    (hdep : metaGet meta ("Depends") = some deps)
    (hsplit : mySplitOn (", ") deps = d0 :: rest)
    (hd0b : stripDepToken d0 ∉ BROKEN_DEPS)
    (hd0g : pmapGet pm (stripDepToken d0) = none) :
    add_package_dependencies pm (fuel + 2) package dict =
      Except.error (PyError.keyError (stripDepToken d0)) ∧
    (∀ ns : List String,
      PyError.keyError (stripDepToken d0) ≠ PyError.missingPackages ns) := by
  refine ⟨?_, fun ns h => by injection h⟩
  show add_package_dependencies pm ((fuel + 1) + 1) package dict = _
  unfold add_package_dependencies
  rw [if_neg hb]
  simp only [hg, hfn, hurl, if_false, Bool.false_eq_true, hsha, hdep, hsplit,
    List.foldlM_cons]
  unfold add_package_dependencies
  rw [if_neg hd0b]
  simp only [hd0g]
  rfl

/-- Map and record for the c10 witness: package p depends on q, which is
absent from the map. -/
def c10wPm : PMap :=
  [("p", [("Package", "p"), ("Filename", "fp"), ("SHA256", "sp"),
    ("Depends", "q (>= 1.0)")])]

/-- Witness for c10_transitive_dep_keyerror at a concrete input. -/
theorem c10_transitive_dep_keyerror_witness :
    add_package_dependencies c10wPm 2 ("p") [] =
      Except.error (PyError.keyError ("q")) ∧
    (∀ ns : List String, PyError.keyError ("q") ≠ PyError.missingPackages ns) := by
  have h := c10_transitive_dep_keyerror c10wPm ("p")
    [("Package", "p"), ("Filename", "fp"), ("SHA256", "sp"), ("Depends", "q (>= 1.0)")]
    ("fp") ("sp") ("q (>= 1.0)") ("q (>= 1.0)") [] 0 []
    (by decide) rfl rfl rfl rfl rfl rfl (by decide) rfl
  exact h

/-! ## Index verification (verify_package_listing) and index parsing
(generate_package_list_dist_repo)

The Release-file search uses the regular expression
([a-f0-9]{64})\s+\d+\s+<escaped path>$ applied with re.search to each line,
taking the first matching line. Its model scans a line from the end:
the line must end with the path, preceded by one or more whitespace
characters, preceded by one or more digits, preceded by one or more
whitespace characters, preceded by exactly 64 hex characters (with
anything before them). -/

/-- Whitespace as matched by the pattern (the characters that can occur in
a Release file line). -/
def isWsChar (c : Char) : Bool := c = ' ' || c = '\t'

/-- Lowercase hex digit, the character class of the checksum pattern. -/
def isHexChar (c : Char) : Bool := c.isDigit || ('a' ≤ c && c ≤ 'f')

/-- Consume one-or-more characters satisfying p from the front, greedily;
none when the first character does not satisfy p. -/
def takeSome1 (p : Char → Bool) (l : List Char) : Option (List Char) :=
  match l with
  | [] => none
  | c :: rest => if p c then some (rest.dropWhile p) else none

/-- Match one Release line against the checksum pattern for file_path,
returning the 64-character checksum group on success. -/
def matchRelLine (filePath line : String) : Option String := do
  let r1 ← takeAfterSep filePath.data.reverse line.data.reverse
  let r2 ← takeSome1 isWsChar r1
  let r3 ← takeSome1 (fun c => c.isDigit) r2
  let r4 ← takeSome1 isWsChar r3
  let hash := r4.take 64
  if hash.length = 64 && hash.all isHexChar then some (String.mk hash.reverse)
  else none

/-- Search the Release file lines for the checksum of file_path: first
matching line wins. -/
def findShaInRelease (filePath : String) (lines : List String) : Option String :=
  lines.findSome? (matchRelLine filePath)

/-- The external facts verify_package_listing consumes: whether the keyring
file exists, the result of the gpgv signature verification of the
downloaded Release file against that keyring, and the lines of the
downloaded Release file. -/
structure VerifyEnv where
  keyringExists : Bool
  gpgvOk : Bool
  releaseLines : List String

/-- A downloaded compressed Packages index: the SHA-256 of its bytes as
hash_file would compute it, and its decompressed text. -/
structure DownloadedIndex where
  sha256 : String
  text : String

/-- Model of verify_package_listing: fail when the keyring file is absent;
fail when gpgv rejects the Release signature; locate the expected SHA-256
of the index by its archive-relative path in the Release file, failing
when no line matches; fail when the downloaded index's computed SHA-256
differs from the recorded one. -/
def verify_package_listing (env : VerifyEnv) (filePath : String)
    (downloadedSha : String) : Except PyError Unit :=
  if env.keyringExists = false then
    Except.error (PyError.exception ("KEYRING_FILE not found"))
  else if env.gpgvOk = false then
    Except.error (PyError.calledProcessError ("gpgv"))
  else
    match findShaInRelease filePath env.releaseLines with
    | none => Except.error (PyError.exception ("Checksum for " ++ filePath ++ " not found"))
    | some h =>
      if downloadedSha ≠ h then
        Except.error (PyError.exception ("Checksum mismatch"))
      else Except.ok ()

/-- Parse one line of a package block: line.split(": ", 1); a line without
the separator is a length-1 sequence, on which Python dict() raises
ValueError. -/
def parseBlockLine (line : String) : Except PyError (String × String) :=
  match mySplitOn (": ") line with
  | [] => Except.error (PyError.valueError ("dictionary update sequence"))
  | [_] => Except.error (PyError.valueError ("dictionary update sequence"))
  | k :: rest => Except.ok (k, myIntercalate (": ") rest)

/-- Parse one blank-line-delimited package block: keep only lines that do
not start with a space (continuation lines) and do not end with a colon
(keys with empty values), and split each into a key/value pair. -/
def parseBlock (block : String) : Except PyError Meta :=
  ((pySplitlines block).filter
    (fun l => !(myStartsWith l (" ")) && !(myEndsWith l (":")))).mapM parseBlockLine

/-- Parse a decompressed Packages index: split on blank lines and parse each
nonempty block. -/
def parseIndex (text : String) : Except PyError (List Meta) :=
  ((mySplitOn ("\n\n") text).filter (fun b => b ≠ "")).mapM parseBlock

/-- Model of generate_package_list_dist_repo, after the download: verify the
downloaded index against the signed Release manifest, then decompress and
parse it into package records. -/
def generate_package_list_dist_repo (env : VerifyEnv) (idx : DownloadedIndex)
    (filePath : String) : Except PyError (List Meta) := do
  verify_package_listing env filePath idx.sha256
  parseIndex idx.text

/-- C1: the index verification chain holds before any entry of an index is
parsed or used: a gpgv signature failure, an absent manifest entry for the
index's archive-relative path, or a mismatch between the downloaded
index's computed SHA-256 and the recorded one each make
generate_package_list_dist_repo fail with an error, producing no package
records; conversely a run that produces records had a present keyring, a
successful signature verification, and a recorded SHA-256 equal to the
downloaded index's computed SHA-256. An index whose bytes were tampered
with (so that its computed SHA-256 no longer equals the recorded one) is
therefore never parsed. -/
theorem c1_index_trust_chain (env : VerifyEnv) (idx : DownloadedIndex) (filePath : String)
    (htamper : env.gpgvOk = false ∨ findShaInRelease filePath env.releaseLines = none ∨
      (∃ h, findShaInRelease filePath env.releaseLines = some h ∧ idx.sha256 ≠ h)) :
    (∃ e, generate_package_list_dist_repo env idx filePath = Except.error e) ∧
    (∀ metas, generate_package_list_dist_repo env idx filePath = Except.ok metas →
      env.keyringExists = true ∧ env.gpgvOk = true ∧
      findShaInRelease filePath env.releaseLines = some idx.sha256 ∧
      parseIndex idx.text = Except.ok metas) := by
  constructor
  · unfold generate_package_list_dist_repo verify_package_listing
    by_cases hk : env.keyringExists = false
    · exact ⟨PyError.exception ("KEYRING_FILE not found"), by rw [if_pos hk]; rfl⟩
    · rcases htamper with hg | hn | ⟨h, hfind, hne⟩
      · exact ⟨PyError.calledProcessError ("gpgv"), by rw [if_neg hk, if_pos hg]; rfl⟩
      · by_cases hg : env.gpgvOk = false
        · exact ⟨PyError.calledProcessError ("gpgv"), by rw [if_neg hk, if_pos hg]; rfl⟩
        · exact ⟨PyError.exception ("Checksum for " ++ filePath ++ " not found"),
            by rw [if_neg hk, if_neg hg]; simp only [hn]; rfl⟩
      · by_cases hg : env.gpgvOk = false
        · exact ⟨PyError.calledProcessError ("gpgv"), by rw [if_neg hk, if_pos hg]; rfl⟩
        · exact ⟨PyError.exception ("Checksum mismatch"),
            by rw [if_neg hk, if_neg hg]; simp only [hfind]; rw [if_pos hne]; rfl⟩
  · intro metas hok
    unfold generate_package_list_dist_repo verify_package_listing at hok
    by_cases hk : env.keyringExists = false
    · rw [if_pos hk] at hok
      have h2 : (Except.error (PyError.exception ("KEYRING_FILE not found")) :
          Except PyError (List Meta)) = Except.ok metas := hok
      simp at h2
    · rw [if_neg hk] at hok
      by_cases hg : env.gpgvOk = false
      · rw [if_pos hg] at hok
        have h2 : (Except.error (PyError.calledProcessError ("gpgv")) :
            Except PyError (List Meta)) = Except.ok metas := hok
        simp at h2
      · rw [if_neg hg] at hok
        cases hfind : findShaInRelease filePath env.releaseLines with
        | none =>
          simp only [hfind] at hok
          have h2 : (Except.error (PyError.exception
              ("Checksum for " ++ filePath ++ " not found")) :
              Except PyError (List Meta)) = Except.ok metas := hok
          simp at h2
        | some h =>
          simp only [hfind] at hok
          by_cases hne : idx.sha256 ≠ h
          · rw [if_pos hne] at hok
            have h2 : (Except.error (PyError.exception ("Checksum mismatch")) :
                Except PyError (List Meta)) = Except.ok metas := hok
            simp at h2
          · rw [if_neg hne] at hok
            have h3 : idx.sha256 = h := not_not.mp hne
            have h4 : parseIndex idx.text = Except.ok metas := hok
            refine ⟨by simpa using hk, by simpa using hg, ?_, h4⟩
            rw [h3]

/-- Environment for the c1 witness: signature fine, manifest recording hash
cafe...01 for the index path, but the downloaded index hashes to dead...02. -/
def c1wEnv : VerifyEnv :=
  { keyringExists := true
    gpgvOk := true
    releaseLines :=
      [" cafecafecafecafecafecafecafecafecafecafecafecafecafecafecafecaf1 123 main/binary-amd64/Packages.xz"] }

/-- A tampered downloaded index for the c1 witness. -/
def c1wIdx : DownloadedIndex :=
  { sha256 := "deadeadeadeadeadeadeadeadeadeadeadeadeadeadeadeadeadeadeadeadea2"
    text := "Package: libc6-dev\nFilename: f\nSHA256: aa\n" }

/-- Witness for c1_index_trust_chain: the tampered index is rejected. -/
theorem c1_index_trust_chain_witness :
    (∃ h, findShaInRelease ("main/binary-amd64/Packages.xz") c1wEnv.releaseLines = some h ∧
      c1wIdx.sha256 ≠ h) ∧
    (∃ e, generate_package_list_dist_repo c1wEnv c1wIdx ("main/binary-amd64/Packages.xz") =
      Except.error e) :=
  ⟨⟨"cafecafecafecafecafecafecafecafecafecafecafecafecafecafecafecaf1",
     by decide, by decide⟩,
   (c1_index_trust_chain c1wEnv c1wIdx ("main/binary-amd64/Packages.xz")
     (Or.inr (Or.inr ⟨"cafecafecafecafecafecafecafecafecafecafecafecafecafecafecafecaf1",
       by decide, by decide⟩))).1⟩

/-! ## Package installation (install_into_sysroot)

The loop body fetches each package file, compares its SHA-256 against the
resolved expected hash, extracts the payload with dpkg-deb -x, reads the
base package name with dpkg-deb --field, and extracts the control data with
dpkg-deb -e. Network and tool behaviour is an oracle environment; the
staging-root effect is tracked as the lists of URLs whose payload was
extracted and of base names whose control data was extracted. -/

/-- Oracles for install_into_sysroot: whether the fetch of a URL succeeds,
the SHA-256 of the fetched file, whether dpkg-deb -x succeeds, the result
of dpkg-deb --field Package (none models a failure), and whether
dpkg-deb -e succeeds. -/
structure InstallEnv where
  fetchOk : String → Bool
  fetchedSha : String → String
  extractOk : String → Bool
  pkgFieldName : String → Option String
  controlOk : String → Bool

/-- The staging-root effects of the install loop. -/
structure InstallState where
  extracted : List String
  controlDirs : List String
deriving DecidableEq, Repr

/-- The per-package install loop: on the first failure the loop stops with
the raised error and the effects performed so far. -/
def installLoop (env : InstallEnv) :
    List (String × String) → InstallState → InstallState × Option PyError
  | [], st => (st, none)
  | (url, sha) :: rest, st =>
    if env.fetchOk url = false then
      (st, some (PyError.exception ("Failed to download file after 5 attempts")))
    else if env.fetchedSha url ≠ sha then
      (st, some (PyError.valueError ("SHA256 mismatch for " ++ url)))
    else
      let st1 : InstallState := { st with extracted := st.extracted ++ [url] }
      if env.extractOk url = false then
        (st1, some (PyError.calledProcessError ("dpkg-deb -x")))
      else
        match env.pkgFieldName url with
        | none => (st1, some (PyError.exception ("Failed to get package name")))
        | some base =>
          if env.controlOk url = false then
            (st1, some (PyError.exception ("Failed to extract control")))
          else
            installLoop env rest { st1 with controlDirs := st1.controlDirs ++ [base] }

/-- The /usr/share allow-list of install_into_sysroot. -/
def USR_SHARE_ALLOWLIST : List String :=
  ["fontconfig", "pkgconfig", "wayland", "wayland-protocols"]

/-- One entry of the /usr/share listing: its name, whether os.path.isdir is
true of it (following symlinks), and whether it is itself a symlink. -/
structure ShareEntry where
  name : String
  isDir : Bool
  isLink : Bool
deriving DecidableEq, Repr

/-- The /usr/share pruning loop: delete each directory entry whose name is
not allow-listed (shutil.rmtree refuses to operate on a symbolic link and
raises OSError); every other entry is kept. -/
def pruneUsrShare : List ShareEntry → Except PyError (List ShareEntry)
  | [] => Except.ok []
  | e :: rest =>
    if e.isDir && !(USR_SHARE_ALLOWLIST.contains e.name) then
      if e.isLink then
        Except.error (PyError.exception ("Cannot call rmtree on a symbolic link"))
      else pruneUsrShare rest
    else do
      let r ← pruneUsrShare rest
      Except.ok (e :: r)

/-- Model of install_into_sysroot: run the install loop over the resolved
(URL, hash) pairs, propagating its first error; then prune /usr/share to
the allow-listed directories. -/
def install_into_sysroot (env : InstallEnv) (packages : List (String × String))
    (usrShare : List ShareEntry) : Except PyError (InstallState × List ShareEntry) :=
  match installLoop env packages { extracted := [], controlDirs := [] } with
  | (_, some e) => Except.error e
  | (st, none) => do
    let sh ← pruneUsrShare usrShare
    Except.ok (st, sh)

lemma installLoop_extracted_sound (env : InstallEnv) :
    ∀ (pkgs : List (String × String)) (st : InstallState),
      ∀ url ∈ (installLoop env pkgs st).1.extracted,
        url ∈ st.extracted ∨ ∃ sha, (url, sha) ∈ pkgs ∧ env.fetchedSha url = sha := by
  intro pkgs
  induction pkgs with
  | nil => intro st url hu; exact Or.inl hu
  | cons p rest ih =>
    intro st url hu
    obtain ⟨u, s⟩ := p
    unfold installLoop at hu
    by_cases hfetch : env.fetchOk u = false
    · rw [if_pos hfetch] at hu
      exact Or.inl hu
    · rw [if_neg hfetch] at hu
      by_cases hsha : env.fetchedSha u ≠ s
      · rw [if_pos hsha] at hu
        exact Or.inl hu
      · rw [if_neg hsha] at hu
        have hs : env.fetchedSha u = s := not_not.mp hsha
        have memCase : url ∈ st.extracted ++ [u] →
            url ∈ st.extracted ∨ ∃ sha, (url, sha) ∈ (u, s) :: rest ∧
              env.fetchedSha url = sha := by
          intro hm
          rcases List.mem_append.mp hm with hm1 | hm1
          · exact Or.inl hm1
          · have : url = u := List.mem_singleton.mp hm1
            exact Or.inr ⟨s, by rw [this]; exact List.mem_cons_self _ _, by rw [this]; exact hs⟩
        by_cases hx : env.extractOk u = false
        · rw [if_pos hx] at hu
          exact memCase hu
        · rw [if_neg hx] at hu
          cases hfield : env.pkgFieldName u with
          | none => simp only [hfield] at hu; exact memCase hu
          | some base =>
            simp only [hfield] at hu
            by_cases hctl : env.controlOk u = false
            · rw [if_pos hctl] at hu
              exact memCase hu
            · rw [if_neg hctl] at hu
              rcases ih _ url hu with hm | ⟨sha, hmem, hsh⟩
              · exact memCase hm
              · exact Or.inr ⟨sha, List.mem_cons_of_mem _ hmem, hsh⟩

lemma installLoop_mismatch_errors (env : InstallEnv) :
    ∀ (pkgs : List (String × String)) (st : InstallState) (url sha : String),
      (url, sha) ∈ pkgs → env.fetchedSha url ≠ sha →
      (installLoop env pkgs st).2 ≠ none := by
  intro pkgs
  induction pkgs with
  | nil => intro st url sha hm; simp at hm
  | cons p rest ih =>
    intro st url sha hm hne
    obtain ⟨u, s⟩ := p
    by_cases hfetch : env.fetchOk u = false
    · intro h
      unfold installLoop at h
      rw [if_pos hfetch] at h
      exact Option.noConfusion h
    · by_cases hsha : env.fetchedSha u ≠ s
      · intro h
        unfold installLoop at h
        rw [if_neg hfetch, if_pos hsha] at h
        exact Option.noConfusion h
      · have hs : env.fetchedSha u = s := not_not.mp hsha
        have hrest : (url, sha) ∈ rest := by
          rcases List.mem_cons.mp hm with h1 | h1
          · exfalso
            have hu : url = u := congrArg Prod.fst h1
            have hsv : sha = s := congrArg Prod.snd h1
            rw [hu, hsv] at hne
            exact hne hs
          · exact h1
        by_cases hx : env.extractOk u = false
        · intro h
          unfold installLoop at h
          rw [if_neg hfetch, if_neg hsha, if_pos hx] at h
          exact Option.noConfusion h
        · cases hfield : env.pkgFieldName u with
          | none =>
            intro h
            unfold installLoop at h
            rw [if_neg hfetch, if_neg hsha, if_neg hx] at h
            simp only [hfield] at h
            exact Option.noConfusion h
          | some base =>
            by_cases hctl : env.controlOk u = false
            · intro h
              unfold installLoop at h
              rw [if_neg hfetch, if_neg hsha, if_neg hx] at h
              simp only [hfield] at h
              rw [if_pos hctl] at h
              exact Option.noConfusion h
            · intro h
              unfold installLoop at h
              rw [if_neg hfetch, if_neg hsha, if_neg hx] at h
              simp only [hfield] at h
              rw [if_neg hctl] at h
              exact ih _ url sha hrest hne h

lemma pkgs_nodup_unique_sha (pkgs : List (String × String))
    (hnodup : (pkgs.map Prod.fst).Nodup) :
    ∀ u a b, (u, a) ∈ pkgs → (u, b) ∈ pkgs → a = b := by
  induction pkgs with
  | nil => intro u a b ha; simp at ha
  | cons p rest ih =>
    intro u a b ha hb
    rw [List.map_cons, List.nodup_cons] at hnodup
    rcases List.mem_cons.mp ha with h1 | h1 <;> rcases List.mem_cons.mp hb with h2 | h2
    · rw [← h1] at h2; exact (congrArg Prod.snd h2).symm
    · exfalso
      apply hnodup.1
      have hu : u = p.1 := congrArg Prod.fst h1
      rw [← hu]
      exact List.mem_map_of_mem Prod.fst h2
    · exfalso
      apply hnodup.1
      have hu : u = p.1 := congrArg Prod.fst h2
      rw [← hu]
      exact List.mem_map_of_mem Prod.fst h1
    · exact ih hnodup.2 u a b h1 h2

/-- C2: for every resolved (URL, expected-hash) pair, install_into_sysroot
verifies the fetched file's SHA-256 before extraction: every URL whose
payload was extracted passed verification (its fetched hash equals its
expected hash from the resolved set), and a pair whose fetched hash
differs from its expected hash is never extracted and makes
install_into_sysroot raise an error. -/
theorem c2_install_hash_gate (env : InstallEnv) (pkgs : List (String × String))
    (usrShare : List ShareEntry) (hnodup : (pkgs.map Prod.fst).Nodup) :
    (∀ url ∈ (installLoop env pkgs { extracted := [], controlDirs := [] }).1.extracted,
      ∃ sha, (url, sha) ∈ pkgs ∧ env.fetchedSha url = sha)
    ∧ (∀ url sha, (url, sha) ∈ pkgs → env.fetchedSha url ≠ sha →
      url ∉ (installLoop env pkgs { extracted := [], controlDirs := [] }).1.extracted ∧
      ∃ e, install_into_sysroot env pkgs usrShare = Except.error e) := by
  constructor
  · intro url hu
    rcases installLoop_extracted_sound env pkgs _ url hu with hm | hok
    · simp at hm
    · exact hok
  · intro url sha hmem hne
    constructor
    · intro hu
      rcases installLoop_extracted_sound env pkgs _ url hu with hm | ⟨sha2, hmem2, hsh2⟩
      · simp at hm
      · have : sha2 = sha := pkgs_nodup_unique_sha pkgs hnodup url sha2 sha hmem2 hmem
        rw [this] at hsh2
        exact hne hsh2
    · have h2 := installLoop_mismatch_errors env pkgs
        { extracted := [], controlDirs := [] } url sha hmem hne
      cases hr : installLoop env pkgs { extracted := [], controlDirs := [] } with
      | mk st o =>
        cases o with
        | none => rw [hr] at h2; simp at h2
        | some e =>
          refine ⟨e, ?_⟩
          unfold install_into_sysroot
          rw [hr]

/-- Environment for the c2 witness: fetches succeed but every file hashes
to 00, mismatching the expected 11. -/
def c2wEnv : InstallEnv :=
  { fetchOk := fun _ => true
    fetchedSha := fun _ => "00"
    extractOk := fun _ => true
    pkgFieldName := fun _ => some "p"
    controlOk := fun _ => true }

/-- Witness for c2_install_hash_gate: a corrupted package is not extracted
and fails the run. -/
theorem c2_install_hash_gate_witness :
    (("u", "11") ∈ [("u", "11")] ∧ c2wEnv.fetchedSha ("u") ≠ "11") ∧
    ("u" ∉ (installLoop c2wEnv [("u", "11")]
        { extracted := [], controlDirs := [] }).1.extracted ∧
      ∃ e, install_into_sysroot c2wEnv [("u", "11")] [] = Except.error e) :=
  ⟨⟨by decide, by decide⟩,
   (c2_install_hash_gate c2wEnv [("u", "11")] [] (by decide)).2 ("u") ("11")
     (by decide) (by decide)⟩

lemma pruneUsrShare_ok_filter :
    ∀ (l r : List ShareEntry), pruneUsrShare l = Except.ok r →
      r = l.filter (fun e => !(e.isDir && !(USR_SHARE_ALLOWLIST.contains e.name))) := by
  intro l
  induction l with
  | nil =>
    intro r h
    have h2 : (Except.ok ([] : List ShareEntry) : Except PyError (List ShareEntry)) =
        Except.ok r := h
    injection h2 with h3
    simp [← h3]
  | cons e rest ih =>
    intro r h
    unfold pruneUsrShare at h
    by_cases hc : (e.isDir && !(USR_SHARE_ALLOWLIST.contains e.name)) = true
    · rw [if_pos hc] at h
      by_cases hl : e.isLink = true
      · rw [if_pos hl] at h
        have h2 : (Except.error (PyError.exception
            ("Cannot call rmtree on a symbolic link")) :
            Except PyError (List ShareEntry)) = Except.ok r := h
        simp at h2
      · rw [if_neg hl] at h
        rw [List.filter_cons_of_neg (by simpa using hc)]
        exact ih r h
    · rw [if_neg hc] at h
      cases hp : pruneUsrShare rest with
      | error e2 =>
        rw [hp] at h
        have h2 : (Except.error e2 : Except PyError (List ShareEntry)) = Except.ok r := h
        simp at h2
      | ok r2 =>
        rw [hp] at h
        have h2 : (Except.ok (e :: r2) : Except PyError (List ShareEntry)) =
            Except.ok r := h
        injection h2 with h3
        rw [← h3, List.filter_cons_of_pos
          (by
            simp only [Bool.not_eq_true, Bool.and_eq_false_iff, Bool.not_eq_false] at hc
            simpa [List.contains, List.elem_iff] using hc), ih r2 hp]

/-- C6 (amended): when install_into_sysroot completes without raising, the
/usr/share listing afterwards has lost every real directory entry whose
name is not on the allow-list, while every non-directory entry (regular
file, symlink to a file) is retained unchanged; what remains is exactly
the entries that are non-directories or allow-listed. (The code only
deletes directory entries; a non-allow-listed entry that is a symlink to
a directory makes the run abort instead.) -/
theorem c6_usr_share_pruned (env : InstallEnv) (pkgs : List (String × String))
    (share : List ShareEntry) (st : InstallState) (sh : List ShareEntry)
    (h : install_into_sysroot env pkgs share = Except.ok (st, sh)) :
    (∀ e ∈ share, e.isDir = true → e.name ∉ USR_SHARE_ALLOWLIST → e ∉ sh)
    ∧ (∀ e ∈ share, e.isDir = false → e ∈ sh)
    ∧ (∀ e ∈ sh, e ∈ share ∧ (e.isDir = false ∨ e.name ∈ USR_SHARE_ALLOWLIST)) := by
  have hprune : pruneUsrShare share = Except.ok sh := by
    unfold install_into_sysroot at h
    cases hr : installLoop env pkgs { extracted := [], controlDirs := [] } with
    | mk st0 o =>
      rw [hr] at h
      cases o with
      | some e =>
        have h2 : (Except.error e : Except PyError (InstallState × List ShareEntry)) =
            Except.ok (st, sh) := h
        simp at h2
      | none =>
        cases hp : pruneUsrShare share with
        | error e2 =>
          rw [hp] at h
          have h2 : (Except.error e2 : Except PyError (InstallState × List ShareEntry)) =
              Except.ok (st, sh) := h
          simp at h2
        | ok sh2 =>
          rw [hp] at h
          have h2 : (Except.ok (st0, sh2) : Except PyError (InstallState × List ShareEntry)) =
              Except.ok (st, sh) := h
          injection h2 with h3
          rw [Prod.mk.injEq] at h3
          rw [h3.2]
  have hfilter := pruneUsrShare_ok_filter share sh hprune
  refine ⟨?_, ?_, ?_⟩
  · intro e hmem hdir hallow hin
    rw [hfilter] at hin
    have hp := List.of_mem_filter hin
    simp only [hdir, Bool.true_and, Bool.not_not] at hp
    exact hallow (by simpa [List.contains, List.elem_iff] using hp)
  · intro e hmem hdir
    rw [hfilter]
    exact List.mem_filter_of_mem hmem (by simp [hdir])
  · intro e hin
    rw [hfilter] at hin
    refine ⟨List.mem_of_mem_filter hin, ?_⟩
    have hp := List.of_mem_filter hin
    by_cases hd : e.isDir = true
    · right
      simp only [hd, Bool.true_and, Bool.not_not] at hp
      simpa [List.contains, List.elem_iff] using hp
    · exact Or.inl ((Bool.not_eq_true e.isDir) ▸ hd)

/-- The /usr/share listing for the c6 counterexample: an allow-listed
directory, a plain file, and a non-allow-listed directory. -/
def c6Share : List ShareEntry :=
  [{ name := "fontconfig", isDir := true, isLink := false },
   { name := "README", isDir := false, isLink := false },
   { name := "docs", isDir := true, isLink := false }]

/-- C6 (counterexample): after install_into_sysroot completes, /usr/share
does not contain only the allow-listed subdirectories: the regular file
README, which is not on the allow-list, survives the pruning because the
code only deletes directory entries. This refutes the claim that every
non-allow-listed entry of usr/share, whatever its kind, is deleted. -/
theorem c6_counterexample :
    install_into_sysroot c2wEnv [] c6Share =
      Except.ok ({ extracted := [], controlDirs := [] },
        [{ name := "fontconfig", isDir := true, isLink := false },
         { name := "README", isDir := false, isLink := false }]) ∧
    ("README" ∉ USR_SHARE_ALLOWLIST) ∧
    ({ name := "README", isDir := false, isLink := false } : ShareEntry) ∈ c6Share :=
  ⟨rfl, by decide, by decide⟩

/-- Witness for c6_usr_share_pruned at the concrete c6Share listing. -/
theorem c6_usr_share_pruned_witness :
    install_into_sysroot c2wEnv [] c6Share =
      Except.ok ({ extracted := [], controlDirs := [] },
        [{ name := "fontconfig", isDir := true, isLink := false },
         { name := "README", isDir := false, isLink := false }]) ∧
    (({ name := "docs", isDir := true, isLink := false } : ShareEntry) ∉
      [({ name := "fontconfig", isDir := true, isLink := false } : ShareEntry),
       { name := "README", isDir := false, isLink := false }]) :=
  ⟨rfl,
   (c6_usr_share_pruned c2wEnv [] c6Share { extracted := [], controlDirs := [] }
     [{ name := "fontconfig", isDir := true, isLink := false },
      { name := "README", isDir := false, isLink := false }] rfl).1
     { name := "docs", isDir := true, isLink := false } (by decide) rfl (by decide)⟩

/-! ## Pruning of executables and static archives (removing_unnecessary_files)

os.walk lists regular files and symlinks to files in its files lists
(symlinks to directories appear only among directory names and are not
visited as files, so they are outside this pass); paths are taken relative
to the install root, which contains no dot characters. A symlink entry
carries os.path.realpath of its resolved target, which the code uses as the
reverse-links key; the code compares it against removed file paths. -/

/-- An entry of the walked tree: a regular file with its X_OK bit, or a
symlink to a file with the realpath of its target. -/
inductive SysFile where
  | file (path : String) (exec : Bool)
  | link (path : String) (targetReal : String)
deriving DecidableEq, Repr

/-- The path of an entry. -/
def entryPath : SysFile → String
  | SysFile.file p _ => p
  | SysFile.link p _ => p

/-- The fixed allow-list of static libraries that must never be removed,
for a supported architecture (an unsupported architecture would raise
KeyError in the script before reaching this point). -/
def removalAllowlist (arch : String) : List String :=
  let triple := (TRIPLES arch).getD ""
  let gccTriple := if arch = "i386" then "i686-linux-gnu" else triple
  let release := (RELEASES arch).getD ""
  let gcc := (GCC_VERSIONS release).getD 0
  ["usr/lib/gcc/" ++ gccTriple ++ "/" ++ toString gcc ++ "/libgcc.a",
   "usr/lib/" ++ triple ++ "/libc_nonshared.a",
   "usr/lib/" ++ triple ++ "/libdl.a",
   "usr/lib/" ++ triple ++ "/libpthread.a",
   "usr/lib/" ++ triple ++ "/librt.a"]

/-- The shared-object guard: "so" in filepath.split(".")[-3:], i.e. the
last three dot-separated segments of the path contain the segment so. -/
def soGuard (p : String) : Bool :=
  ((mySplitOn (".") p).reverse.take 3).contains ("so")

/-- Condition under which a regular file is deleted: not allow-listed, not
guarded as a shared object, and executable or a .a static archive. -/
def removeFileCond (allow : List String) (p : String) (x : Bool) : Bool :=
  !(allow.contains p) && !(soGuard p) && (x || myEndsWith p (".a"))

/-- os.path.exists for the initial assert, on the walked-tree model: a file
at the path, or a symlink at the path whose resolved target is a file of
the tree. -/
def existsInTree (tree : List SysFile) (p : String) : Bool :=
  tree.any (fun e =>
    match e with
    | SysFile.file q _ => q == p
    | SysFile.link q t => q == p && tree.any (fun e2 =>
        match e2 with
        | SysFile.file u _ => u == t
        | SysFile.link _ _ => false))

/-- The paths of the files the scan decides to remove. -/
def removedFilePaths (allow : List String) (tree : List SysFile) : List String :=
  tree.filterMap (fun e =>
    match e with
    | SysFile.file p x => if removeFileCond allow p x then some p else none
    | SysFile.link _ _ => none)

/-- The keep-condition of the removal pass: a file survives unless the
remove condition holds; a non-allow-listed symlink is deleted when its
resolved target is one of the just-removed files. -/
def keepEntry (allow removed : List String) : SysFile → Bool
  | SysFile.file p x => !(removeFileCond allow p x)
  | SysFile.link p t => !(!(allow.contains p) && removed.contains t)

/-- Model of removing_unnecessary_files: assert every allow-listed path
exists; then delete every executable or .a regular file outside the
allow-list (sparing shared objects), and every non-allow-listed symlink
whose resolved target was just deleted. -/
def removing_unnecessary_files (arch : String) (tree : List SysFile) :
    Except PyError (List SysFile) :=
  let allow := removalAllowlist arch
  if allow.all (fun a => existsInTree tree a) then
    Except.ok (tree.filter (keepEntry allow (removedFilePaths allow tree)))
  else Except.error (PyError.exception ("assert: allowlisted file does not exist"))

/-- The tree for the c7 counterexample: the five allow-listed static
archives of amd64, plus an executable shared object. -/
def c7Tree : List SysFile :=
  [SysFile.file ("usr/lib/gcc/x86_64-linux-gnu/10/libgcc.a") false,
   SysFile.file ("usr/lib/x86_64-linux-gnu/libc_nonshared.a") false,
   SysFile.file ("usr/lib/x86_64-linux-gnu/libdl.a") false,
   SysFile.file ("usr/lib/x86_64-linux-gnu/libpthread.a") false,
   SysFile.file ("usr/lib/x86_64-linux-gnu/librt.a") false,
   SysFile.file ("lib/x86_64-linux-gnu/libc.so.6") true]

/-- C7 (counterexample): after removing_unnecessary_files on amd64, the
executable regular file lib/x86_64-linux-gnu/libc.so.6 — outside the
fixed allow-list — survives, because the pass spares any path whose last
three dot-separated segments contain "so". This refutes the claim that no
regular file outside the allow-list is executable afterwards. -/
theorem c7_counterexample :
    removing_unnecessary_files ("amd64") c7Tree = Except.ok c7Tree ∧
    SysFile.file ("lib/x86_64-linux-gnu/libc.so.6") true ∈ c7Tree ∧
    ("lib/x86_64-linux-gnu/libc.so.6" ∉ removalAllowlist ("amd64")) :=
  ⟨rfl, by decide, by decide⟩

/-- C7 (amended): when removing_unnecessary_files completes, every entry of
the tree whose path is on the fixed allow-list still exists, and every
remaining regular file outside the allow-list that is not spared by the
shared-object guard ("so" among the last three dot-separated path
segments) is neither executable nor a .a static archive. Shared objects
are spared even when executable. -/
theorem c7_pruning_invariant (arch : String) (tree res : List SysFile)
    (h : removing_unnecessary_files arch tree = Except.ok res) :
    (∀ a ∈ removalAllowlist arch, ∃ e, e ∈ res ∧ entryPath e = a)
    ∧ (∀ p x, SysFile.file p x ∈ res → p ∉ removalAllowlist arch → soGuard p = false →
      x = false ∧ myEndsWith p (".a") = false) := by
  unfold removing_unnecessary_files at h
  by_cases hall : (removalAllowlist arch).all (fun a => existsInTree tree a) = true
  · rw [if_pos hall] at h
    have hres : res = tree.filter
        (keepEntry (removalAllowlist arch) (removedFilePaths (removalAllowlist arch) tree)) := by
      injection h with h2
      exact h2.symm
    constructor
    · intro a ha
      have hex : existsInTree tree a = true := by
        have h3 := List.all_eq_true.mp hall a
        exact h3 (by simpa [List.contains, List.elem_iff] using ha)
      have hcontains : (removalAllowlist arch).contains a = true := by
        simpa [List.contains, List.elem_iff] using ha
      unfold existsInTree at hex
      rcases List.any_eq_true.mp hex with ⟨e, hmem, hpred⟩
      cases e with
      | file q xq =>
        have hq : q = a := by
          have hp2 : (q == a) = true := hpred
          simpa using hp2
        subst hq
        refine ⟨SysFile.file q xq, ?_, rfl⟩
        rw [hres]
        exact List.mem_filter_of_mem hmem (by simp [keepEntry, removeFileCond]; tauto)
      | link q t =>
        have hq : q = a := by
          have hp3 : (q == a && tree.any (fun e2 =>
              match e2 with
              | SysFile.file u _ => u == t
              | SysFile.link _ _ => false)) = true := hpred
          have h4 := (Bool.and_eq_true _ _).mp hp3
          simpa using h4.1
        subst hq
        refine ⟨SysFile.link q t, ?_, rfl⟩
        rw [hres]
        exact List.mem_filter_of_mem hmem (by simp [keepEntry]; tauto)
    · intro p x hmem hallow hso
      rw [hres] at hmem
      have hkeep := List.of_mem_filter hmem
      unfold keepEntry at hkeep
      have hcond : removeFileCond (removalAllowlist arch) p x = false := by
        simpa using hkeep
      unfold removeFileCond at hcond
      have hnc : (removalAllowlist arch).contains p = false := by
        by_cases hcp : (removalAllowlist arch).contains p = true
        · exact absurd (by simpa [List.contains, List.elem_iff] using hcp) hallow
        · exact Bool.not_eq_true _ ▸ hcp
      rw [hnc, hso] at hcond
      simp only [Bool.not_false, Bool.true_and] at hcond
      exact ⟨(Bool.or_eq_false_iff.mp hcond).1, (Bool.or_eq_false_iff.mp hcond).2⟩
  · rw [if_neg hall] at h
    have h2 : (Except.error (PyError.exception ("assert: allowlisted file does not exist")) :
        Except PyError (List SysFile)) = Except.ok res := h
    simp at h2

/-- Witness for c7_pruning_invariant at the concrete amd64 tree. -/
theorem c7_pruning_invariant_witness :
    removing_unnecessary_files ("amd64") c7Tree = Except.ok c7Tree ∧
    (∀ p x, SysFile.file p x ∈ c7Tree → p ∉ removalAllowlist ("amd64") →
      soGuard p = false → x = false ∧ myEndsWith p (".a") = false) :=
  ⟨rfl, (c7_pruning_invariant ("amd64") c7Tree c7Tree rfl).2⟩

/-! ## Timestamp snapshot and restore (record_metadata / restore_metadata)

The staging tree is a flat list of entries keyed by path relative to the
install root (the root itself has the empty relative path). Each entry has
a kind as seen by os.walk without following symlinks: a real directory
(walked into, and os.utime is applied to it as a walk root), a regular
file or a symlink to a file (listed among files, with os.utime applied
with follow_symlinks=False), or a symlink to a directory (listed among
directory names but never walked into, so never touched). Timestamps are
the (st_atime, st_mtime) pair; the fixed reference time
time.mktime(strptime(ARCHIVE_TIMESTAMP)) enters as a parameter. -/

/-- Entry kinds as classified by os.walk with followlinks=False. -/
inductive FKind where
  | dir
  | file
  | linkFile
  | linkDir
deriving DecidableEq, Repr

/-- One filesystem entry with its lstat timestamps. -/
structure FsMeta where
  path : String
  kind : FKind
  atime : Int
  mtime : Int
deriving DecidableEq, Repr

/-- Model of record_metadata: record (atime, mtime) for every entry listed
by the walk (everything except the install root itself), keyed by
relative path. -/
def record_metadata (tree : List FsMeta) : List (String × Int × Int) :=
  (tree.filter (fun e => e.path ≠ "")).map (fun e => (e.path, e.atime, e.mtime))

/-- Lookup in a recorded-metadata snapshot. -/
def metaLookup (m : List (String × Int × Int)) (p : String) : Option (Int × Int) :=
  (m.find? (fun e => e.1 == p)).map (fun e => e.2)

/-- Model of restore_metadata: every real directory (each walk root,
including the install root) gets the archive time on both timestamps;
every file and symlink-to-file gets its recorded pair when its relative
path is in the snapshot, and the archive time otherwise; a symlink to a
directory is listed among directory names but is not a walk root, so it
is left untouched. -/
def restore_metadata (tree : List FsMeta) (old : List (String × Int × Int))
    (archiveTime : Int) : List FsMeta :=
  tree.map (fun e =>
    match e.kind with
    | FKind.dir => { e with atime := archiveTime, mtime := archiveTime }
    | FKind.file | FKind.linkFile =>
      match metaLookup old e.path with
      | some t => { e with atime := t.1, mtime := t.2 }
      | none => { e with atime := archiveTime, mtime := archiveTime }
    | FKind.linkDir => e)

lemma record_metadata_lookup (tree : List FsMeta) (htree : (tree.map FsMeta.path).Nodup) :
    ∀ e ∈ tree, e.path ≠ "" →
      metaLookup (record_metadata tree) e.path = some (e.atime, e.mtime) := by
  induction tree with
  | nil => intro e he; simp at he
  | cons f rest ih =>
    intro e he hne
    rw [List.map_cons, List.nodup_cons] at htree
    rcases List.mem_cons.mp he with h1 | h1
    · subst h1
      unfold record_metadata metaLookup
      rw [List.filter_cons_of_pos (by simpa using hne), List.map_cons]
      rw [List.find?_cons_of_pos _ (by simp)]
      rfl
    · have hne2 : f.path ≠ e.path := by
        intro hq
        exact htree.1 (hq ▸ List.mem_map_of_mem FsMeta.path h1)
      have ihres := ih htree.2 e h1 hne
      unfold record_metadata metaLookup at ihres ⊢
      by_cases hf : f.path = ""
      · rw [List.filter_cons_of_neg (by simpa using hf)]
        exact ihres
      · rw [List.filter_cons_of_pos (by simpa using hf), List.map_cons]
        rw [List.find?_cons_of_neg _ (by simpa using hne2)]
        exact ihres

/-- C8: after restore_metadata, every real directory in the tree (including
the install root itself, at relative path "") carries the archive
reference time on both timestamps; every file or symlink-to-file whose
relative path is a key of the snapshot carries its recorded pair; every
file or symlink-to-file absent from the snapshot carries the archive
time. Moreover, for a snapshot recorded from a pre-patch tree with
distinct paths, an entry of that tree is restored to exactly its original
pair (the metadata round trip). -/
theorem c8_restore_metadata (tree : List FsMeta) (old : List (String × Int × Int))
    (archiveTime : Int) :
    (∀ e ∈ restore_metadata tree old archiveTime,
      (e.kind = FKind.dir → e.atime = archiveTime ∧ e.mtime = archiveTime)
      ∧ ((e.kind = FKind.file ∨ e.kind = FKind.linkFile) →
        (∀ t, metaLookup old e.path = some t → e.atime = t.1 ∧ e.mtime = t.2)
        ∧ (metaLookup old e.path = none → e.atime = archiveTime ∧ e.mtime = archiveTime)))
    ∧ (∀ (tree0 : List FsMeta), old = record_metadata tree0 →
      (tree0.map FsMeta.path).Nodup →
      ∀ g ∈ tree0, g.path ≠ "" → metaLookup old g.path = some (g.atime, g.mtime)) := by
  constructor
  · intro e he
    rw [restore_metadata, List.mem_map] at he
    rcases he with ⟨f, hf, hfe⟩
    subst hfe
    cases hk : f.kind with
    | dir => simp [hk]
    | file =>
      cases hl : metaLookup old f.path with
      | some t => simp [hk, hl]
      | none => simp [hk, hl]
    | linkFile =>
      cases hl : metaLookup old f.path with
      | some t => simp [hk, hl]
      | none => simp [hk, hl]
    | linkDir => simp [hk]
  · intro tree0 hold hnodup g hg hne
    rw [hold]
    exact record_metadata_lookup tree0 hnodup g hg hne

/-- The tree for the c8 witness: the install root, a directory, a pristine
file, a patched (new) file, and a symlink to a file. -/
def c8Tree : List FsMeta :=
  [{ path := "", kind := FKind.dir, atime := 5, mtime := 6 },
   { path := "usr", kind := FKind.dir, atime := 7, mtime := 8 },
   { path := "usr/a", kind := FKind.file, atime := 11, mtime := 12 },
   { path := "usr/b", kind := FKind.file, atime := 13, mtime := 14 },
   { path := "usr/l", kind := FKind.linkFile, atime := 15, mtime := 16 }]

/-- The snapshot for the c8 witness: usr/a and usr/l recorded, usr/b not. -/
def c8Old : List (String × Int × Int) :=
  [("usr", (7, 8)), ("usr/a", (11, 12)), ("usr/l", (15, 16))]

/-- Witness for c8_restore_metadata at a concrete tree: the directory gets
the archive time and the recorded file keeps its recorded pair. -/
theorem c8_restore_metadata_witness :
    ({ path := "usr", kind := FKind.dir, atime := 100, mtime := 100 } : FsMeta) ∈
      restore_metadata c8Tree c8Old 100 ∧
    (({ path := "usr", kind := FKind.dir, atime := 100, mtime := 100 } : FsMeta).kind =
        FKind.dir →
      ({ path := "usr", kind := FKind.dir, atime := 100, mtime := 100 } : FsMeta).atime = 100 ∧
      ({ path := "usr", kind := FKind.dir, atime := 100, mtime := 100 } : FsMeta).mtime = 100) :=
  ⟨by decide,
   ((c8_restore_metadata c8Tree c8Old 100).1
     { path := "usr", kind := FKind.dir, atime := 100, mtime := 100 } (by decide)).1⟩

/-! ## Symlink normalization (cleanup_jail_symlinks)

The file system is modelled as a finite map from absolute physical paths
(component lists from the real root "/") to nodes: regular files, real
directories, or symlinks carrying their literal target string, exactly as
os.readlink returns it. The install root is a path inside this file
system, so chains through absolute symlink targets resolve against the
host, as os.path.exists does. Path resolution follows the POSIX lookup
that stat performs: components are resolved left to right against the
physical path built so far, ".." is applied to that physical path, and
every symlink met is followed; a set of symlinks already being followed
detects cycles (where the host call fails with ELOOP and os.path.exists
returns False). os.walk visits each entry of the tree once, does not
follow directory symlinks, and hands the pass physical paths, so the
processing order is an enumeration of the tree's entries. -/

/-- An absolute physical path: components from the file system root. -/
abbrev FPath := List String

/-- A file system node. -/
inductive FNode where
  | file
  | dir
  | link (raw : String)
deriving DecidableEq, Repr

/-- Whether a node is a symlink. -/
def FNode.isLink : FNode → Bool
  | FNode.link _ => true
  | _ => false

/-- A file system: entries keyed by absolute physical path. The root
directory itself is implicit. -/
abbrev FS := List (FPath × FNode)

/-- Lookup of a path's node. -/
def FS.lookup (fs : FS) (p : FPath) : Option FNode :=
  (fs.find? (fun e => e.1 == p)).map (fun e => e.2)

/-- os.remove of the entry at a path. -/
def FS.erase (fs : FS) (p : FPath) : FS := fs.filter (fun e => !(e.1 == p))

/-- Replacing the node at an existing path (os.remove followed by
os.symlink at the same path). -/
def FS.setNode (fs : FS) (p : FPath) (n : FNode) : FS :=
  fs.map (fun e => if e.1 == p then (p, n) else e)

/-- The paths of the symlink entries. -/
def linkKeys (fs : FS) : List FPath :=
  (fs.filter (fun e => e.2.isLink)).map (fun e => e.1)

/-- The components of a symlink target string (empty components from
leading, trailing or doubled slashes denote no step, as in path
resolution; Python strip("/") likewise only removes empty components). -/
def parseComps (raw : String) : List String :=
  (mySplitOn ("/") raw).filter (fun c => c ≠ "")

/-- Whether a target string is absolute (os.path.isabs). -/
def rawIsAbs (raw : String) : Bool := myStartsWith raw ("/")

/-- The symlink-following nesting budget of path resolution, modelling the
kernel's bounded symlink following (exceeding it fails the lookup, and
os.path.exists returns False, as for a symlink cycle). -/
def FOLLOW_LIMIT : Nat := 40

/-- One pass of POSIX-style path resolution as performed by stat (hence by
os.path.exists): walk the components from a physical base path, skipping
empty and "." components, applying ".." to the physical path built so
far, requiring every intermediate node to be a directory, and resolving
every symlink met through the given follow function — against the root
for an absolute target, against the containing directory for a relative
one. Returns the final physical path on success. -/
def resolveSteps (fs : FS) (follow : FPath → List String → Option FPath) :
    FPath → List String → Option FPath
  | base, [] => some base
  | base, c :: rest =>
    if c = "" || c = "." then resolveSteps fs follow base rest
    else if c = ".." then resolveSteps fs follow base.dropLast rest
    else
      match FS.lookup fs (base ++ [c]) with
      | none => none
      | some FNode.file => if rest = [] then some (base ++ [c]) else none
      | some FNode.dir => resolveSteps fs follow (base ++ [c]) rest
      | some (FNode.link raw) =>
        match follow (if rawIsAbs raw then [] else base) (parseComps raw) with
        | none => none
        | some t => resolveSteps fs follow t rest

/-- Path resolution with a symlink nesting budget: at budget zero any
symlink fails the lookup; otherwise a symlink's target is resolved with
one budget unit less. -/
def resolveF (fs : FS) : Nat → FPath → List String → Option FPath
  | 0 => resolveSteps fs (fun _ _ => none)
  | f + 1 => resolveSteps fs (resolveF fs f)

/-- os.path.exists at a path. -/
def fsExists (fs : FS) (p : FPath) : Bool := (resolveF fs FOLLOW_LIMIT [] p).isSome

/-- Lexical normalization of an absolute path's components, as
os.path.normpath performs on an absolute path before os.path.relpath
compares: empty and "." components vanish, ".." removes the previous
component (at the root it vanishes). -/
def absNorm (comps : List String) : FPath :=
  comps.foldl
    (fun acc c =>
      if c = "" || c = "." then acc
      else if c = ".." then acc.dropLast
      else acc ++ [c]) []

/-- Length of the longest common prefix of two component lists. -/
def commonPrefixLen : FPath → FPath → Nat
  | a :: as, b :: bs => if a = b then commonPrefixLen as bs + 1 else 0
  | _, _ => 0

/-- os.path.relpath(target, start) on absolute paths, by components: both
sides are normalized, then the result climbs out of start's non-shared
suffix with ".." components and descends into target's non-shared
suffix; two equal paths give ".". -/
def relpathComps (target start : FPath) : List String :=
  let t := absNorm target
  let b := absNorm start
  let c := commonPrefixLen t b
  let r := List.replicate (b.length - c) (".." : String) ++ t.drop c
  if r = [] then ["."] else r

/-- The state of one cleanup_jail_symlinks run: the current file system,
the paths of removed links, the paths of rewritten links, and whether
the pass raised its link-target exception. -/
structure CleanState where
  fs : FS
  removed : List FPath
  rewritten : List FPath
  failed : Bool
deriving DecidableEq, Repr

/-- Processing of one walked entry by cleanup_jail_symlinks: only symlinks
are touched. A link whose literal target is the /dev/null sentinel is
removed; a link whose target does not exist (checked at the install root
for an absolute target, at the link's directory for a relative one) is
removed; a surviving absolute link is rewritten to the equivalent
relative target after verifying the relative resolution exists, raising
an exception otherwise; a surviving relative link is left unchanged. -/
def processLink (root : FPath) (st : CleanState) (p : FPath) : CleanState :=
  if st.failed then st
  else
    match FS.lookup st.fs p with
    | some (FNode.link raw) =>
      if raw = "/dev/null" then
        { st with fs := FS.erase st.fs p, removed := st.removed ++ [p] }
      else
        let tcomps := parseComps raw
        let absTarget := if rawIsAbs raw then root ++ tcomps else p.dropLast ++ tcomps
        if !(fsExists st.fs absTarget) then
          { st with fs := FS.erase st.fs p, removed := st.removed ++ [p] }
        else if rawIsAbs raw then
          let rel := relpathComps (root ++ tcomps) p.dropLast
          if fsExists st.fs (p.dropLast ++ rel) then
            { st with
              fs := FS.setNode st.fs p (FNode.link (myIntercalate ("/") rel)),
              rewritten := st.rewritten ++ [p] }
          else { st with failed := true }
        else st
    | _ => st

/-- Model of cleanup_jail_symlinks: fold the per-entry processing over the
walk order (an enumeration of the tree's entries). -/
def cleanup_jail_symlinks (root : FPath) (fs : FS) (order : List FPath) : CleanState :=
  order.foldl (processLink root)
    { fs := fs, removed := [], rewritten := [], failed := false }

/-- The install root of the c5 counterexample. -/
def c5CexRoot : FPath := ["sr"]

/-- The file system of the c5 counterexample: inside the staging root sr, a
systemd-style masked service E (an absolute symlink to /dev/null) and an
absolute symlink F to /E, i.e. to E's path inside the staging root; the
host provides /dev/null. -/
def c5CexFs : FS :=
  [(["sr"], FNode.dir),
   (["sr", "E"], FNode.link ("/dev/null")),
   (["sr", "F"], FNode.link ("/E")),
   (["dev"], FNode.dir),
   (["dev", "null"], FNode.file)]

/-- The walk order of the c5 counterexample: F before E. -/
def c5CexOrder : List FPath := [["sr", "F"], ["sr", "E"]]

/-- C5 (counterexample): on c5CexFs the first cleanup run rewrites F to the
relative target E (F's target exists at check time: the chain through E
reaches the host's /dev/null) and then deletes the sentinel link E; the
second run finds F's target gone and deletes F. So the second run deletes
a link, refuting the claim that a second run deletes and rewrites
nothing. -/
theorem c5_counterexample :
    (cleanup_jail_symlinks c5CexRoot c5CexFs c5CexOrder).failed = false ∧
    (cleanup_jail_symlinks c5CexRoot c5CexFs c5CexOrder).removed = [["sr", "E"]] ∧
    (cleanup_jail_symlinks c5CexRoot c5CexFs c5CexOrder).rewritten = [["sr", "F"]] ∧
    (cleanup_jail_symlinks c5CexRoot
        (cleanup_jail_symlinks c5CexRoot c5CexFs c5CexOrder).fs c5CexOrder).removed =
      [["sr", "F"]] := by
  refine ⟨?_, ?_, ?_, ?_⟩ <;> decide

/-! ## Lemmas for the symlink-normalization theorems -/

/-- Components acceptable in a walked physical path: nonempty and not "."
or ".." (os.walk emits real entry names). -/
def plainComps (l : List String) : Bool :=
  l.all (fun c => !(c = "" || c = "." || c = ".."))

/-- Every proper ancestor of a walked path is a real directory in the file
system (os.walk reaches entries through real directories only). -/
def ancestorsAreDirs (fs : FS) (p : FPath) : Bool :=
  (List.range (p.length - 1)).all
    (fun i => decide (FS.lookup fs (p.take (i + 1)) = some FNode.dir))

/-- Well-formed install-root components: nonempty and without a leading
slash (they come from splitting an absolute path name). -/
def rootOk (root : FPath) : Bool :=
  root.all (fun s => !(s = "") && !(myStartsWith s ("/")))

/-- Whether every symlink of the file system has a relative target. -/
def relLinksOnly (fs : FS) : Bool :=
  fs.all (fun e =>
    match e.2 with
    | FNode.link raw => !(rawIsAbs raw)
    | _ => true)

lemma lookup_erase_ne (p q : FPath) (h : ¬ q = p) :
    ∀ fs : FS, FS.lookup (FS.erase fs p) q = FS.lookup fs q := by
  have h2 : ¬ p = q := fun hh => h hh.symm
  intro fs
  induction fs with
  | nil => rfl
  | cons e rest ih =>
    unfold FS.erase FS.lookup at ih ⊢
    by_cases hep : e.1 = p
    · rw [List.filter_cons_of_neg (by simp [hep])]
      rw [List.find?_cons_of_neg _ (by simp [hep, h2])]
      exact ih
    · rw [List.filter_cons_of_pos (by simp [hep])]
      by_cases heq : e.1 = q
      · rw [List.find?_cons_of_pos _ (by simp [heq]), List.find?_cons_of_pos _ (by simp [heq])]
      · rw [List.find?_cons_of_neg _ (by simp [heq]), List.find?_cons_of_neg _ (by simp [heq])]
        exact ih

lemma lookup_erase_self (p : FPath) :
    ∀ fs : FS, FS.lookup (FS.erase fs p) p = none := by
  intro fs
  induction fs with
  | nil => rfl
  | cons e rest ih =>
    unfold FS.erase FS.lookup at ih ⊢
    by_cases hep : e.1 = p
    · rw [List.filter_cons_of_neg (by simp [hep])]
      exact ih
    · rw [List.filter_cons_of_pos (by simp [hep])]
      rw [List.find?_cons_of_neg _ (by simp [hep])]
      exact ih

lemma lookup_setNode_ne (p q : FPath) (n : FNode) (h : ¬ q = p) :
    ∀ fs : FS, FS.lookup (FS.setNode fs p n) q = FS.lookup fs q := by
  have h2 : ¬ p = q := fun hh => h hh.symm
  intro fs
  induction fs with
  | nil => rfl
  | cons e rest ih =>
    unfold FS.setNode FS.lookup at ih ⊢
    rw [List.map_cons]
    by_cases hep : e.1 = p
    · rw [if_pos (by simp [hep])]
      rw [List.find?_cons_of_neg _ (by simp [h2]),
        List.find?_cons_of_neg _ (by simp [hep, h2])]
      exact ih
    · rw [if_neg (by simp [hep])]
      by_cases heq : e.1 = q
      · rw [List.find?_cons_of_pos _ (by simp [heq]), List.find?_cons_of_pos _ (by simp [heq])]
      · rw [List.find?_cons_of_neg _ (by simp [heq]), List.find?_cons_of_neg _ (by simp [heq])]
        exact ih

lemma lookup_setNode_self (p : FPath) (n : FNode) :
    ∀ fs : FS, (FS.lookup fs p).isSome = true →
      FS.lookup (FS.setNode fs p n) p = some n := by
  intro fs
  induction fs with
  | nil => intro h; simp [FS.lookup] at h
  | cons e rest ih =>
    intro h
    unfold FS.setNode FS.lookup at ih ⊢
    unfold FS.lookup at h
    rw [List.map_cons]
    by_cases hep : e.1 = p
    · rw [if_pos (by simp [hep])]
      rw [List.find?_cons_of_pos _ (by simp)]
      rfl
    · rw [if_neg (by simp [hep])]
      rw [List.find?_cons_of_neg _ (by simp [hep])]
      rw [List.find?_cons_of_neg _ (by simp [hep])] at h
      exact ih h

lemma resolveSteps_mono_follow (fs : FS)
    (follow follow2 : FPath → List String → Option FPath)
    (hf : ∀ b c r, follow b c = some r → follow2 b c = some r) :
    ∀ (comps : List String) (base : FPath) (r : FPath),
      resolveSteps fs follow base comps = some r →
      resolveSteps fs follow2 base comps = some r := by
  intro comps
  induction comps with
  | nil => intro base r h; exact h
  | cons c rest ih =>
    intro base r h
    simp only [resolveSteps] at h ⊢
    by_cases hc : (c = "" || c = ".") = true
    · rw [if_pos hc] at h ⊢
      exact ih _ r h
    · rw [if_neg hc] at h ⊢
      by_cases hdd : c = ".."
      · rw [if_pos hdd] at h ⊢
        exact ih _ r h
      · rw [if_neg hdd] at h ⊢
        cases hl : FS.lookup fs (base ++ [c]) with
        | none => simp only [hl] at h; exact absurd h (by simp)
        | some node =>
          cases node with
          | file => simp only [hl] at h ⊢; exact h
          | dir =>
            simp only [hl] at h ⊢
            exact ih _ r h
          | link raw =>
            simp only [hl] at h ⊢
            cases hfo : follow (if rawIsAbs raw then [] else base) (parseComps raw) with
            | none => simp only [hfo] at h; exact absurd h (by simp)
            | some t =>
              simp only [hfo] at h
              rw [hf _ _ t hfo]
              exact ih _ r h

lemma resolveF_mono (fs : FS) :
    ∀ f g, f ≤ g → ∀ (b : FPath) (c : List String) (r : FPath),
      resolveF fs f b c = some r → resolveF fs g b c = some r := by
  intro f
  induction f with
  | zero =>
    intro g _ b c r h
    cases g with
    | zero => exact h
    | succ g2 =>
      exact resolveSteps_mono_follow fs _ _
        (fun b2 c2 r2 hh => absurd hh (by simp)) c b r h
  | succ f2 ih =>
    intro g hg b c r h
    cases g with
    | zero => exact absurd hg (by omega)
    | succ g2 =>
      have hle : f2 ≤ g2 := Nat.succ_le_succ_iff.mp hg
      exact resolveSteps_mono_follow fs _ _
        (fun b2 c2 r2 => ih g2 hle b2 c2 r2) c b r h

lemma resolveSteps_prefix (fs : FS) (follow : FPath → List String → Option FPath) :
    ∀ (pre : List String) (base : FPath) (rest : List String),
      plainComps pre = true →
      (∀ i, i < pre.length → FS.lookup fs (base ++ pre.take (i + 1)) = some FNode.dir) →
      resolveSteps fs follow base (pre ++ rest) =
        resolveSteps fs follow (base ++ pre) rest := by
  intro pre
  induction pre with
  | nil => intro base rest _ _; simp
  | cons a pre2 ih =>
    intro base rest hplain hdirs
    have ha := List.all_eq_true.mp hplain a (List.mem_cons_self a pre2)
    have ha2 : ¬((a = "" || a = ".") = true) ∧ ¬(a = "..") := by
      constructor
      · intro hx
        rcases Bool.or_eq_true_iff.mp hx with h1 | h1 <;> simp [h1] at ha
      · intro hx
        simp [hx] at ha
    have hd := hdirs 0 (by simp)
    have hd2 : FS.lookup fs (base ++ [a]) = some FNode.dir := by
      simpa using hd
    simp only [List.cons_append, resolveSteps]
    rw [if_neg ha2.1, if_neg ha2.2]
    simp only [hd2, List.append_eq]
    rw [ih (base ++ [a]) rest
      (by
        unfold plainComps at hplain ⊢
        rw [List.all_cons] at hplain
        exact (Bool.and_eq_true _ _).mp hplain |>.2)
      (by
        intro i hi
        have h3 := hdirs (i + 1) (by simpa using Nat.succ_lt_succ hi)
        simpa [List.append_assoc] using h3)]
    rw [List.append_assoc]
    rfl

lemma resolveSteps_erase (fs : FS) (p : FPath) (rawp : String)
    (hlook : FS.lookup fs p = some (FNode.link rawp))
    (hrel : rawIsAbs rawp = false)
    (follow follow2 : FPath → List String → Option FPath)
    (hmono : ∀ b c r, follow b c = some r → follow2 b c = some r)
    (hP : ∀ t, ¬ follow p.dropLast (parseComps rawp) = some t) :
    ∀ (comps : List String) (base : FPath) (r : FPath),
      resolveSteps fs follow base comps = some r →
      resolveSteps (FS.erase fs p) follow2 base comps = some r := by
  intro comps
  induction comps with
  | nil => intro base r h; exact h
  | cons c rest ih =>
    intro base r h
    simp only [resolveSteps] at h ⊢
    by_cases hc : (c = "" || c = ".") = true
    · rw [if_pos hc] at h ⊢
      exact ih _ r h
    · rw [if_neg hc] at h ⊢
      by_cases hdd : c = ".."
      · rw [if_pos hdd] at h ⊢
        exact ih _ r h
      · rw [if_neg hdd] at h ⊢
        by_cases hqp : base ++ [c] = p
        · have hb : p.dropLast = base := by
            rw [← hqp]
            exact List.dropLast_concat
          simp only [hqp, hlook, hrel, Bool.false_eq_true, if_false] at h
          cases hfo : follow base (parseComps rawp) with
          | none => simp only [hfo] at h; exact absurd h (by simp)
          | some t =>
            exact absurd (hb ▸ hfo : follow p.dropLast (parseComps rawp) = some t) (hP t)
        · rw [lookup_erase_ne p (base ++ [c]) hqp fs]
          cases hl : FS.lookup fs (base ++ [c]) with
          | none => simp only [hl] at h; exact absurd h (by simp)
          | some node =>
            cases node with
            | file => simp only [hl] at h ⊢; exact h
            | dir =>
              simp only [hl] at h ⊢
              exact ih _ r h
            | link raw =>
              simp only [hl] at h ⊢
              cases hfo : follow (if rawIsAbs raw then [] else base) (parseComps raw) with
              | none => simp only [hfo] at h; exact absurd h (by simp)
              | some t =>
                simp only [hfo] at h
                rw [hmono _ _ t hfo]
                exact ih _ r h

lemma resolveF_erase (fs : FS) (p : FPath) (rawp : String)
    (hlook : FS.lookup fs p = some (FNode.link rawp))
    (hrel : rawIsAbs rawp = false)
    (hplain : plainComps p.dropLast = true)
    (hanc : ∀ i, i < p.dropLast.length →
      FS.lookup fs (p.dropLast.take (i + 1)) = some FNode.dir)
    (hbroken : resolveF fs FOLLOW_LIMIT [] (p.dropLast ++ parseComps rawp) = none) :
    ∀ f, f ≤ FOLLOW_LIMIT → ∀ (b : FPath) (c : List String) (r : FPath),
      resolveF fs f b c = some r → resolveF (FS.erase fs p) f b c = some r := by
  have heq : resolveF fs FOLLOW_LIMIT [] (p.dropLast ++ parseComps rawp) =
      resolveF fs FOLLOW_LIMIT p.dropLast (parseComps rawp) := by
    show resolveSteps fs (resolveF fs 39) [] (p.dropLast ++ parseComps rawp) =
      resolveSteps fs (resolveF fs 39) p.dropLast (parseComps rawp)
    have hpre := resolveSteps_prefix fs (resolveF fs 39) p.dropLast []
      (parseComps rawp) hplain (by simpa using hanc)
    simpa using hpre
  rw [heq] at hbroken
  intro f
  induction f with
  | zero =>
    intro _ b c r h
    exact resolveSteps_erase fs p rawp hlook hrel _ _
      (fun b2 c2 r2 hh => absurd hh (by simp))
      (fun t hh => absurd hh (by simp)) c b r h
  | succ f2 ih =>
    intro hf b c r h
    have hf2 : f2 ≤ FOLLOW_LIMIT := Nat.le_of_succ_le hf
    refine resolveSteps_erase fs p rawp hlook hrel _ _
      (fun b2 c2 r2 => ih hf2 b2 c2 r2) ?_ c b r h
    intro t hh
    have h40 := resolveF_mono fs f2 FOLLOW_LIMIT hf2 _ _ _ hh
    exact absurd (hbroken.symm.trans h40) (by simp)

/-- Deleting a broken relative link (one whose own existence check fails)
preserves the existence of every path: the check agrees with how chains
through the link resolve, so anything that resolved before still does. -/
lemma fsExists_erase_broken (fs : FS) (p : FPath) (rawp : String)
    (hlook : FS.lookup fs p = some (FNode.link rawp))
    (hrel : rawIsAbs rawp = false)
    (hplain : plainComps p.dropLast = true)
    (hanc : ∀ i, i < p.dropLast.length →
      FS.lookup fs (p.dropLast.take (i + 1)) = some FNode.dir)
    (hbroken : fsExists fs (p.dropLast ++ parseComps rawp) = false)
    (x : FPath) (hx : fsExists fs x = true) : fsExists (FS.erase fs p) x = true := by
  unfold fsExists at hbroken hx ⊢
  cases hr : resolveF fs FOLLOW_LIMIT [] x with
  | none => rw [hr] at hx; simp at hx
  | some r =>
    have hb2 : resolveF fs FOLLOW_LIMIT [] (p.dropLast ++ parseComps rawp) = none := by
      cases hr2 : resolveF fs FOLLOW_LIMIT [] (p.dropLast ++ parseComps rawp) with
      | none => rfl
      | some t => rw [hr2] at hbroken; simp at hbroken
    rw [resolveF_erase fs p rawp hlook hrel hplain hanc hb2 FOLLOW_LIMIT
      (Nat.le_refl _) [] x r hr]
    rfl

lemma plainComps_dropLast (p : FPath) (h : plainComps p = true) :
    plainComps p.dropLast = true := by
  unfold plainComps at h ⊢
  rw [List.all_eq_true] at h ⊢
  intro c hc
  exact h c ((List.dropLast_sublist p).mem hc)

lemma ancestorsAreDirs_spec (fs : FS) (p : FPath) (h : ancestorsAreDirs fs p = true) :
    ∀ i, i < p.dropLast.length → FS.lookup fs (p.dropLast.take (i + 1)) = some FNode.dir := by
  intro i hi
  have hlen : p.dropLast.length = p.length - 1 := List.length_dropLast p
  have h2 := List.all_eq_true.mp h i (List.mem_range.mpr (by omega))
  have h3 : FS.lookup fs (p.take (i + 1)) = some FNode.dir := of_decide_eq_true h2
  have h4 : p.dropLast.take (i + 1) = p.take (i + 1) := by
    rw [List.dropLast_eq_take, List.take_take]
    congr 1
    omega
  rw [h4]
  exact h3

lemma splitListAux_slash_no_slash :
    ∀ (fuel : Nat) (l acc : List Char), l.length ≤ fuel → (∀ ch ∈ acc, ch ≠ '/') →
      ∀ piece ∈ splitListAux ['/'] fuel l acc, ∀ ch ∈ piece, ch ≠ '/' := by
  intro fuel
  induction fuel with
  | zero =>
    intro l acc hlen hacc piece hpiece ch hch
    have hl : l = [] := List.length_eq_zero.mp (Nat.le_zero.mp hlen)
    subst hl
    simp only [splitListAux, List.append_nil, List.mem_singleton] at hpiece
    subst hpiece
    exact hacc ch (List.mem_reverse.mp hch)
  | succ f ih =>
    intro l acc hlen hacc piece hpiece ch hch
    cases l with
    | nil =>
      simp only [splitListAux, List.mem_singleton] at hpiece
      subst hpiece
      exact hacc ch (List.mem_reverse.mp hch)
    | cons d ds =>
      simp only [splitListAux] at hpiece
      by_cases hd : ('/' : Char) = d
      · rw [show takeAfterSep ['/'] (d :: ds) = some ds by
          simp only [takeAfterSep]; rw [if_pos hd]] at hpiece
        rcases List.mem_cons.mp hpiece with h1 | h1
        · subst h1
          exact hacc ch (List.mem_reverse.mp hch)
        · exact ih ds [] (by simpa using Nat.le_of_succ_le_succ hlen) (by simp)
            piece h1 ch hch
      · rw [show takeAfterSep ['/'] (d :: ds) = none by
          simp only [takeAfterSep]; rw [if_neg hd]] at hpiece
        refine ih ds (d :: acc) (by simpa using Nat.le_of_succ_le_succ hlen) ?_ piece hpiece ch hch
        intro ch2 hch2
        rcases List.mem_cons.mp hch2 with h2 | h2
        · subst h2
          exact fun hcc => hd hcc.symm
        · exact hacc ch2 h2

lemma parseComps_no_slash (raw : String) :
    ∀ c ∈ parseComps raw, c ≠ "" ∧ ∀ ch ∈ c.data, ch ≠ '/' := by
  intro c hc
  unfold parseComps at hc
  have hmem := List.mem_of_mem_filter hc
  have hne := List.of_mem_filter hc
  refine ⟨by simpa using hne, ?_⟩
  unfold mySplitOn at hmem
  rw [if_neg (by decide)] at hmem
  rcases List.mem_map.mp hmem with ⟨piece, hpiece, hpc⟩
  intro ch hch
  have hch2 : ch ∈ piece := by
    rw [← hpc] at hch
    exact hch
  have hpiece2 : piece ∈ splitListAux ['/'] raw.data.length raw.data [] := hpiece
  exact splitListAux_slash_no_slash raw.data.length raw.data [] (Nat.le_refl _)
    (by simp) piece hpiece2 ch hch2

lemma absNorm_mem (l : List String) :
    ∀ (acc : FPath) (x : String),
      x ∈ l.foldl
        (fun acc c =>
          if c = "" || c = "." then acc
          else if c = ".." then acc.dropLast
          else acc ++ [c]) acc →
      x ∈ acc ∨ x ∈ l := by
  induction l with
  | nil => intro acc x h; exact Or.inl h
  | cons c rest ih =>
    intro acc x h
    simp only [List.foldl_cons] at h
    by_cases hc : (c = "" || c = ".") = true
    · rw [if_pos hc] at h
      rcases ih acc x h with h1 | h1
      · exact Or.inl h1
      · exact Or.inr (List.mem_cons_of_mem c h1)
    · rw [if_neg hc] at h
      by_cases hdd : c = ".."
      · rw [if_pos hdd] at h
        rcases ih acc.dropLast x h with h1 | h1
        · exact Or.inl ((List.dropLast_sublist acc).mem h1)
        · exact Or.inr (List.mem_cons_of_mem c h1)
      · rw [if_neg hdd] at h
        rcases ih (acc ++ [c]) x h with h1 | h1
        · rcases List.mem_append.mp h1 with h2 | h2
          · exact Or.inl h2
          · exact Or.inr (by rw [List.mem_singleton.mp h2]; exact List.mem_cons_self c rest)
        · exact Or.inr (List.mem_cons_of_mem c h1)

lemma relpathComps_mem (target start : FPath) (x : String)
    (h : x ∈ relpathComps target start) :
    x = ".." ∨ x = "." ∨ x ∈ target := by
  unfold relpathComps at h
  by_cases hr : (List.replicate ((absNorm start).length - commonPrefixLen (absNorm target) (absNorm start)) (".." : String) ++
      (absNorm target).drop (commonPrefixLen (absNorm target) (absNorm start))) = []
  · rw [if_pos hr] at h
    exact Or.inr (Or.inl (List.mem_singleton.mp h))
  · rw [if_neg hr] at h
    rcases List.mem_append.mp h with h1 | h1
    · exact Or.inl (List.eq_of_mem_replicate h1)
    · have h2 : x ∈ absNorm target := (List.drop_sublist _ _).mem h1
      unfold absNorm at h2
      rcases absNorm_mem target [] x h2 with h3 | h3
      · simp at h3
      · exact Or.inr (Or.inr h3)

lemma foldl_slashjoin_prefix (x : String) :
    ∀ (xs : List String), ∃ t : String,
      xs.foldl (fun acc y => acc ++ "/" ++ y) x = x ++ t := by
  have key : ∀ (xs : List String) (acc : String), ∃ t : String,
      xs.foldl (fun acc y => acc ++ "/" ++ y) acc = acc ++ t := by
    intro xs
    induction xs with
    | nil => intro acc; exact ⟨"", by simp⟩
    | cons y ys ih =>
      intro acc
      simp only [List.foldl_cons]
      rcases ih (acc ++ "/" ++ y) with ⟨t, ht⟩
      exact ⟨"/" ++ y ++ t, by rw [ht]; simp [String.append_assoc]⟩
  exact fun xs => key xs x

lemma myIntercalate_not_abs (x : String) (xs : List String)
    (hx : x ≠ "") (hxs : myStartsWith x ("/") = false) :
    rawIsAbs (myIntercalate ("/") (x :: xs)) = false := by
  unfold rawIsAbs myStartsWith
  have hm : myIntercalate ("/") (x :: xs) = xs.foldl (fun acc y => acc ++ "/" ++ y) x := rfl
  rcases foldl_slashjoin_prefix x xs with ⟨t, ht⟩
  rw [hm, ht]
  cases hxd : x.data with
  | nil => exact absurd (by
      cases x with
      | mk d => simp at hxd; rw [hxd]) hx
  | cons ch rest =>
    have hch2 : ¬ ('/' = ch) := by
      intro hcc
      unfold myStartsWith at hxs
      rw [hxd, ← hcc] at hxs
      simp [List.isPrefixOf] at hxs
    have hdata : (x ++ t).data = ch :: (rest ++ t.data) := by
      simp [hxd]
    rw [hdata]
    simp [List.isPrefixOf, hch2]

lemma no_slash_not_startsWith (x : String) (hne : x ≠ "")
    (h : ∀ ch ∈ x.data, ch ≠ '/') : myStartsWith x ("/") = false := by
  unfold myStartsWith
  cases hxd : x.data with
  | nil => exact absurd (by
      cases x with
      | mk d => simp at hxd; rw [hxd]) hne
  | cons ch rest =>
    have hch : ch ≠ '/' := h ch (by rw [hxd]; exact List.mem_cons_self ch rest)
    have hch2 : ¬ ('/' = ch) := fun hcc => hch hcc.symm
    simp [List.isPrefixOf, hch2]

lemma relpathComps_ne_nil (target start : FPath) : relpathComps target start ≠ [] := by
  unfold relpathComps
  by_cases hr : (List.replicate ((absNorm start).length - commonPrefixLen (absNorm target) (absNorm start)) (".." : String) ++
      (absNorm target).drop (commonPrefixLen (absNorm target) (absNorm start))) = []
  · rw [if_pos hr]; simp
  · rw [if_neg hr]; exact hr

/-- The relative target written by the rewrite step is never absolute: its
first component is "..", ".", a component of the install root, or a
component of the link's parsed target, none of which is empty or starts
with a slash. -/
lemma rewritten_raw_not_abs (root : FPath) (hroot : rootOk root = true)
    (raw : String) (b : FPath) :
    rawIsAbs (myIntercalate ("/") (relpathComps (root ++ parseComps raw) b)) = false := by
  cases hrel : relpathComps (root ++ parseComps raw) b with
  | nil => exact absurd hrel (relpathComps_ne_nil _ _)
  | cons x xs =>
    have hx : x ∈ relpathComps (root ++ parseComps raw) b := by
      rw [hrel]; exact List.mem_cons_self x xs
    rcases relpathComps_mem _ _ x hx with h1 | h1 | h1
    · subst h1
      exact myIntercalate_not_abs _ _ (by decide) (by decide)
    · subst h1
      exact myIntercalate_not_abs _ _ (by decide) (by decide)
    · rcases List.mem_append.mp h1 with h2 | h2
      · have h3 := List.all_eq_true.mp hroot x h2
        have h4 : ¬(x = "") ∧ myStartsWith x ("/") = false := by
          rcases Bool.and_eq_true _ _ |>.mp h3 with ⟨h5, h6⟩
          exact ⟨by simpa using h5, by simpa using h6⟩
        exact myIntercalate_not_abs _ _ h4.1 h4.2
      · rcases parseComps_no_slash raw x h2 with ⟨h5, h6⟩
        exact myIntercalate_not_abs _ _ h5 (no_slash_not_startsWith x h5 h6)

/-- Exhaustive case analysis of one processLink step: the step is a no-op
(when the pass already failed, the entry is not a link, or the link is
relative with an existing target), a removal (sentinel target or failed
existence check), a rewrite of an absolute link to the relative target,
or the exception. -/
lemma processLink_spec (root : FPath) (st : CleanState) (p : FPath) :
    (st.failed = true ∧ processLink root st p = st)
    ∨ ((∀ raw, ¬ FS.lookup st.fs p = some (FNode.link raw)) ∧
        processLink root st p = st)
    ∨ (∃ raw, st.failed = false ∧ FS.lookup st.fs p = some (FNode.link raw) ∧
        (raw = "/dev/null" ∨
          fsExists st.fs (if rawIsAbs raw then root ++ parseComps raw
            else p.dropLast ++ parseComps raw) = false) ∧
        processLink root st p =
          { st with fs := FS.erase st.fs p, removed := st.removed ++ [p] })
    ∨ (∃ raw, st.failed = false ∧ FS.lookup st.fs p = some (FNode.link raw) ∧
        rawIsAbs raw = true ∧
        processLink root st p =
          { st with
            fs := FS.setNode st.fs p (FNode.link (myIntercalate ("/")
              (relpathComps (root ++ parseComps raw) p.dropLast))),
            rewritten := st.rewritten ++ [p] })
    ∨ (∃ raw, st.failed = false ∧ FS.lookup st.fs p = some (FNode.link raw) ∧
        rawIsAbs raw = true ∧
        processLink root st p = { st with failed := true })
    ∨ (∃ raw, st.failed = false ∧ FS.lookup st.fs p = some (FNode.link raw) ∧
        rawIsAbs raw = false ∧
        fsExists st.fs (p.dropLast ++ parseComps raw) = true ∧
        processLink root st p = st) := by
  by_cases hfail : st.failed = true
  · exact Or.inl ⟨hfail, by unfold processLink; rw [if_pos hfail]⟩
  · have hfail2 : st.failed = false := by
      cases hb : st.failed
      · rfl
      · exact absurd hb hfail
    cases hlk : FS.lookup st.fs p with
    | none =>
      refine Or.inr (Or.inl ⟨fun raw hh => Option.noConfusion hh, ?_⟩)
      unfold processLink
      rw [if_neg hfail]
      simp only [hlk]
    | some node =>
      cases node with
      | file =>
        refine Or.inr (Or.inl ⟨fun raw hh => by
          injection hh with hh2
          exact FNode.noConfusion hh2, ?_⟩)
        unfold processLink
        rw [if_neg hfail]
        simp only [hlk]
      | dir =>
        refine Or.inr (Or.inl ⟨fun raw hh => by
          injection hh with hh2
          exact FNode.noConfusion hh2, ?_⟩)
        unfold processLink
        rw [if_neg hfail]
        simp only [hlk]
      | link raw =>
        by_cases hsent : raw = "/dev/null"
        · refine Or.inr (Or.inr (Or.inl ⟨raw, hfail2, rfl, Or.inl hsent, ?_⟩))
          unfold processLink
          rw [if_neg hfail]
          simp only [hlk]
          rw [if_pos hsent]
        · by_cases hex : fsExists st.fs (if rawIsAbs raw then root ++ parseComps raw
            else p.dropLast ++ parseComps raw) = true
          · by_cases habs : rawIsAbs raw = true
            · by_cases hjoin : fsExists st.fs
                (p.dropLast ++ relpathComps (root ++ parseComps raw) p.dropLast) = true
              · refine Or.inr (Or.inr (Or.inr (Or.inl ⟨raw, hfail2, rfl, habs, ?_⟩)))
                unfold processLink
                rw [if_neg hfail]
                simp only [hlk]
                rw [if_neg hsent, if_neg (by rw [hex]; decide), if_pos habs, if_pos hjoin]
              · refine Or.inr (Or.inr (Or.inr (Or.inr (Or.inl ⟨raw, hfail2, rfl, habs, ?_⟩))))
                unfold processLink
                rw [if_neg hfail]
                simp only [hlk]
                rw [if_neg hsent, if_neg (by rw [hex]; decide), if_pos habs,
                  if_neg (by simpa using hjoin)]
            · have habs2 : rawIsAbs raw = false := by
                cases hb : rawIsAbs raw
                · rfl
                · exact absurd hb habs
              refine Or.inr (Or.inr (Or.inr (Or.inr (Or.inr
                ⟨raw, hfail2, rfl, habs2, ?_, ?_⟩))))
              · rw [if_neg habs] at hex
                exact hex
              · unfold processLink
                rw [if_neg hfail]
                simp only [hlk]
                rw [if_neg hsent, if_neg (by rw [hex]; decide), if_neg habs]
          · have hex2 : fsExists st.fs (if rawIsAbs raw then root ++ parseComps raw
                else p.dropLast ++ parseComps raw) = false := by
              cases hb : fsExists st.fs (if rawIsAbs raw then root ++ parseComps raw
                else p.dropLast ++ parseComps raw)
              · rfl
              · exact absurd hb hex
            refine Or.inr (Or.inr (Or.inl ⟨raw, hfail2, rfl, Or.inr hex2, ?_⟩))
            unfold processLink
            rw [if_neg hfail]
            simp only [hlk]
            rw [if_neg hsent, if_pos (by rw [hex2]; decide)]

/-- One processLink step preserves the first-run invariant: paths outside the
processed list keep their original node, and every processed path that is
still a symlink has a relative target. -/
lemma processLink_invA (root : FPath) (fs : FS) (hroot : rootOk root = true)
    (done : List FPath) (p : FPath) (st : CleanState)
    (hinv : st.failed = false →
      (∀ q, ¬ q ∈ done → FS.lookup st.fs q = FS.lookup fs q) ∧
      (∀ q raw, q ∈ done → FS.lookup st.fs q = some (FNode.link raw) →
        rawIsAbs raw = false)) :
    (processLink root st p).failed = false →
      (∀ q, ¬ q ∈ done ++ [p] →
        FS.lookup (processLink root st p).fs q = FS.lookup fs q) ∧
      (∀ q raw, q ∈ done ++ [p] →
        FS.lookup (processLink root st p).fs q = some (FNode.link raw) →
        rawIsAbs raw = false) := by
  by_cases hfail : st.failed = true
  · have he : processLink root st p = st := by
      unfold processLink
      rw [if_pos hfail]
    intro hf
    rw [he, hfail] at hf
    exact Bool.noConfusion hf
  · have hfail2 : st.failed = false := by
      cases hb : st.failed
      · rfl
      · exact absurd hb hfail
    rcases hinv hfail2 with ⟨hout, hdone⟩
    rcases processLink_spec root st p with
      ⟨h1, _⟩ |
      ⟨hnl, heq⟩ |
      ⟨raw, _, hlk, _, heq⟩ |
      ⟨raw, _, hlk, _, heq⟩ |
      ⟨raw, _, hlk, _, heq⟩ |
      ⟨raw, _, hlk, hrelp, _, heq⟩
    · rw [hfail2] at h1
      exact Bool.noConfusion h1
    · intro _
      rw [heq]
      refine ⟨fun q hq => hout q (fun hh => hq (List.mem_append_left _ hh)), ?_⟩
      intro q raw2 hq hlkq
      rcases List.mem_append.mp hq with h2 | h2
      · exact hdone q raw2 h2 hlkq
      · rw [List.mem_singleton.mp h2] at hlkq
        exact absurd hlkq (hnl raw2)
    · intro _
      rw [heq]
      constructor
      · intro q hq
        have hqp : ¬ q = p := fun hh =>
          hq (List.mem_append_right _ (by rw [hh]; exact List.mem_singleton_self p))
        show FS.lookup (FS.erase st.fs p) q = FS.lookup fs q
        rw [lookup_erase_ne p q hqp st.fs]
        exact hout q (fun hh => hq (List.mem_append_left _ hh))
      · intro q raw2 hq hlkq
        have hlkq2 : FS.lookup (FS.erase st.fs p) q = some (FNode.link raw2) := hlkq
        by_cases hqp : q = p
        · rw [hqp, lookup_erase_self p st.fs] at hlkq2
          exact Option.noConfusion hlkq2
        · rw [lookup_erase_ne p q hqp st.fs] at hlkq2
          rcases List.mem_append.mp hq with h2 | h2
          · exact hdone q raw2 h2 hlkq2
          · exact absurd (List.mem_singleton.mp h2) hqp
    · intro _
      rw [heq]
      constructor
      · intro q hq
        have hqp : ¬ q = p := fun hh =>
          hq (List.mem_append_right _ (by rw [hh]; exact List.mem_singleton_self p))
        show FS.lookup (FS.setNode st.fs p (FNode.link (myIntercalate ("/")
          (relpathComps (root ++ parseComps raw) p.dropLast)))) q = FS.lookup fs q
        rw [lookup_setNode_ne p q _ hqp st.fs]
        exact hout q (fun hh => hq (List.mem_append_left _ hh))
      · intro q raw2 hq hlkq
        have hlkq2 : FS.lookup (FS.setNode st.fs p (FNode.link (myIntercalate ("/")
            (relpathComps (root ++ parseComps raw) p.dropLast)))) q =
            some (FNode.link raw2) := hlkq
        by_cases hqp : q = p
        · rw [hqp] at hlkq2
          rw [lookup_setNode_self p (FNode.link (myIntercalate ("/")
            (relpathComps (root ++ parseComps raw) p.dropLast))) st.fs
            (by rw [hlk]; rfl)] at hlkq2
          injection hlkq2 with h3
          injection h3 with h4
          rw [← h4]
          exact rewritten_raw_not_abs root hroot raw p.dropLast
        · rw [lookup_setNode_ne p q _ hqp st.fs] at hlkq2
          rcases List.mem_append.mp hq with h2 | h2
          · exact hdone q raw2 h2 hlkq2
          · exact absurd (List.mem_singleton.mp h2) hqp
    · intro hf
      rw [heq] at hf
      simp at hf
    · intro _
      rw [heq]
      refine ⟨fun q hq => hout q (fun hh => hq (List.mem_append_left _ hh)), ?_⟩
      intro q raw2 hq hlkq
      rcases List.mem_append.mp hq with h2 | h2
      · exact hdone q raw2 h2 hlkq
      · rw [List.mem_singleton.mp h2] at hlkq
        rw [hlk] at hlkq
        injection hlkq with h3
        injection h3 with h4
        rw [← h4]
        exact hrelp

/-- Folding the per-entry processing over any suffix of the walk preserves
the first-run invariant. -/
lemma cleanup_foldA (root : FPath) (fs : FS) (hroot : rootOk root = true) :
    ∀ (todo done : List FPath) (st : CleanState),
      (st.failed = false →
        (∀ q, ¬ q ∈ done → FS.lookup st.fs q = FS.lookup fs q) ∧
        (∀ q raw, q ∈ done → FS.lookup st.fs q = some (FNode.link raw) →
          rawIsAbs raw = false)) →
      ((todo.foldl (processLink root) st).failed = false →
        (∀ q, ¬ q ∈ done ++ todo →
          FS.lookup (todo.foldl (processLink root) st).fs q = FS.lookup fs q) ∧
        (∀ q raw, q ∈ done ++ todo →
          FS.lookup (todo.foldl (processLink root) st).fs q = some (FNode.link raw) →
          rawIsAbs raw = false)) := by
  intro todo
  induction todo with
  | nil =>
    intro done st hinv
    simpa using hinv
  | cons p rest ih =>
    intro done st hinv
    have h2 := ih (done ++ [p]) (processLink root st p)
      (processLink_invA root fs hroot done p st hinv)
    simp only [List.foldl_cons]
    rw [List.append_cons]
    exact h2

/-- The relative-tree run invariant: the pass has not failed and has
rewritten nothing, every current node agrees with the original tree except
for removed relative links, every current link is relative, and every
processed surviving link's target exists. -/
def invB (fs : FS) (done : List FPath) (st : CleanState) : Prop :=
  st.failed = false ∧
  st.rewritten = [] ∧
  (∀ q, FS.lookup st.fs q = FS.lookup fs q ∨
    (FS.lookup st.fs q = none ∧
      ∃ raw, FS.lookup fs q = some (FNode.link raw) ∧ rawIsAbs raw = false)) ∧
  (∀ q raw, FS.lookup st.fs q = some (FNode.link raw) → rawIsAbs raw = false) ∧
  (∀ q raw, q ∈ done → FS.lookup st.fs q = some (FNode.link raw) →
    fsExists st.fs (q.dropLast ++ parseComps raw) = true)

/-- One processLink step preserves the relative-tree invariant: a relative
link with an existing target is untouched, and removing a relative link
with a failing existence check preserves every resolution. -/
lemma processLink_invB (root : FPath) (fs : FS)
    (done : List FPath) (p : FPath) (st : CleanState)
    (hp : plainComps p = true) (hpanc : ancestorsAreDirs fs p = true)
    (hinv : invB fs done st) :
    invB fs (done ++ [p]) (processLink root st p) := by
  rcases hinv with ⟨hf, hrw, htrack, hrel, hexd⟩
  rcases processLink_spec root st p with
    ⟨h1, _⟩ |
    ⟨hnl, heq⟩ |
    ⟨raw, _, hlk, hcond, heq⟩ |
    ⟨raw, _, hlk, habs, _⟩ |
    ⟨raw, _, hlk, habs, _⟩ |
    ⟨raw, _, hlk, hrelp6, hex, heq⟩
  · rw [hf] at h1
    exact Bool.noConfusion h1
  · rw [heq]
    refine ⟨hf, hrw, htrack, hrel, ?_⟩
    intro q raw2 hq hlkq
    rcases List.mem_append.mp hq with h2 | h2
    · exact hexd q raw2 h2 hlkq
    · rw [List.mem_singleton.mp h2] at hlkq
      exact absurd hlkq (hnl raw2)
  · have hrelp : rawIsAbs raw = false := hrel p raw hlk
    have hbroken : fsExists st.fs (p.dropLast ++ parseComps raw) = false := by
      rcases hcond with hsent | hcex
      · rw [hsent] at hrelp
        exact absurd hrelp (by decide)
      · have hnot : ¬ (rawIsAbs raw = true) := by
          rw [hrelp]
          decide
        rw [if_neg hnot] at hcex
        exact hcex
    have hancst : ∀ i, i < p.dropLast.length →
        FS.lookup st.fs (p.dropLast.take (i + 1)) = some FNode.dir := by
      intro i hi
      have h3 := ancestorsAreDirs_spec fs p hpanc i hi
      rcases htrack (p.dropLast.take (i + 1)) with h4 | ⟨_, raw3, h5, _⟩
      · rw [h4]
        exact h3
      · rw [h3] at h5
        injection h5 with h6
        exact FNode.noConfusion h6
    rw [heq]
    refine ⟨hf, hrw, ?_, ?_, ?_⟩
    · intro q
      by_cases hqp : q = p
      · refine Or.inr ⟨?_, raw, ?_, hrelp⟩
        · show FS.lookup (FS.erase st.fs p) q = none
          rw [hqp]
          exact lookup_erase_self p st.fs
        · rw [hqp]
          rcases htrack p with h4 | ⟨h4, _⟩
          · rw [h4] at hlk
            exact hlk
          · rw [h4] at hlk
            exact Option.noConfusion hlk
      · rcases htrack q with h4 | ⟨h4, raw3, h5, h6⟩
        · refine Or.inl ?_
          show FS.lookup (FS.erase st.fs p) q = FS.lookup fs q
          rw [lookup_erase_ne p q hqp st.fs]
          exact h4
        · refine Or.inr ⟨?_, raw3, h5, h6⟩
          show FS.lookup (FS.erase st.fs p) q = none
          rw [lookup_erase_ne p q hqp st.fs]
          exact h4
    · intro q raw2 hlkq
      have hlkq2 : FS.lookup (FS.erase st.fs p) q = some (FNode.link raw2) := hlkq
      by_cases hqp : q = p
      · rw [hqp, lookup_erase_self p st.fs] at hlkq2
        exact Option.noConfusion hlkq2
      · rw [lookup_erase_ne p q hqp st.fs] at hlkq2
        exact hrel q raw2 hlkq2
    · intro q raw2 hq hlkq
      have hlkq2 : FS.lookup (FS.erase st.fs p) q = some (FNode.link raw2) := hlkq
      by_cases hqp : q = p
      · rw [hqp, lookup_erase_self p st.fs] at hlkq2
        exact Option.noConfusion hlkq2
      · rw [lookup_erase_ne p q hqp st.fs] at hlkq2
        have h2 : q ∈ done := by
          rcases List.mem_append.mp hq with h3 | h3
          · exact h3
          · exact absurd (List.mem_singleton.mp h3) hqp
        have hex0 := hexd q raw2 h2 hlkq2
        show fsExists (FS.erase st.fs p) (q.dropLast ++ parseComps raw2) = true
        exact fsExists_erase_broken st.fs p raw hlk hrelp
          (plainComps_dropLast p hp) hancst hbroken _ hex0
  · have hrelp := hrel p raw hlk
    rw [hrelp] at habs
    exact Bool.noConfusion habs
  · have hrelp := hrel p raw hlk
    rw [hrelp] at habs
    exact Bool.noConfusion habs
  · rw [heq]
    refine ⟨hf, hrw, htrack, hrel, ?_⟩
    intro q raw2 hq hlkq
    rcases List.mem_append.mp hq with h2 | h2
    · exact hexd q raw2 h2 hlkq
    · have hqp : q = p := List.mem_singleton.mp h2
      rw [hqp] at hlkq ⊢
      rw [hlk] at hlkq
      injection hlkq with h3
      injection h3 with h4
      rw [← h4]
      exact hex

/-- Folding the per-entry processing over any suffix of the walk preserves
the relative-tree invariant. -/
lemma cleanup_foldB (root : FPath) (fs : FS) :
    ∀ (todo done : List FPath) (st : CleanState),
      (∀ p2 ∈ todo, plainComps p2 = true ∧ ancestorsAreDirs fs p2 = true) →
      invB fs done st →
      invB fs (done ++ todo) (todo.foldl (processLink root) st) := by
  intro todo
  induction todo with
  | nil =>
    intro done st _ hinv
    simpa using hinv
  | cons p rest ih =>
    intro done st hord hinv
    have hp := hord p (List.mem_cons_self p rest)
    have h2 := ih (done ++ [p]) (processLink root st p)
      (fun p2 hp2 => hord p2 (List.mem_cons_of_mem p hp2))
      (processLink_invB root fs done p st hp.1 hp.2 hinv)
    simp only [List.foldl_cons]
    rw [List.append_cons]
    exact h2

/-- On a tree whose symlinks are all relative with existing targets, every
cleanup pass is a complete no-op, whatever the walk order. -/
lemma cleanup_noop (root : FPath) (fs2 : FS)
    (hrel : ∀ q raw, FS.lookup fs2 q = some (FNode.link raw) → rawIsAbs raw = false)
    (hex : ∀ q raw, FS.lookup fs2 q = some (FNode.link raw) →
      fsExists fs2 (q.dropLast ++ parseComps raw) = true) :
    ∀ order2, cleanup_jail_symlinks root fs2 order2 =
      { fs := fs2, removed := [], rewritten := [], failed := false } := by
  intro order2
  show order2.foldl (processLink root)
      { fs := fs2, removed := [], rewritten := [], failed := false } =
    { fs := fs2, removed := [], rewritten := [], failed := false }
  induction order2 with
  | nil => rfl
  | cons p rest ih =>
    have hstep : processLink root
        { fs := fs2, removed := [], rewritten := [], failed := false } p =
        { fs := fs2, removed := [], rewritten := [], failed := false } := by
      rcases processLink_spec root
          { fs := fs2, removed := [], rewritten := [], failed := false } p with
        ⟨h1, _⟩ |
        ⟨_, heq⟩ |
        ⟨raw, _, hlk, hcond, _⟩ |
        ⟨raw, _, hlk, habs, _⟩ |
        ⟨raw, _, hlk, habs, _⟩ |
        ⟨raw, _, _, _, _, heq⟩
      · exact Bool.noConfusion h1
      · exact heq
      · have hlk2 : FS.lookup fs2 p = some (FNode.link raw) := hlk
        have hrelp : rawIsAbs raw = false := hrel p raw hlk2
        rcases hcond with hsent | hcex
        · rw [hsent] at hrelp
          exact absurd hrelp (by decide)
        · have hnot : ¬ (rawIsAbs raw = true) := by
            rw [hrelp]
            decide
          rw [if_neg hnot] at hcex
          have hcex2 : fsExists fs2 (p.dropLast ++ parseComps raw) = false := hcex
          rw [hex p raw hlk2] at hcex2
          exact Bool.noConfusion hcex2
      · have hlk2 : FS.lookup fs2 p = some (FNode.link raw) := hlk
        have hrelp := hrel p raw hlk2
        rw [hrelp] at habs
        exact Bool.noConfusion habs
      · have hlk2 : FS.lookup fs2 p = some (FNode.link raw) := hlk
        have hrelp := hrel p raw hlk2
        rw [hrelp] at habs
        exact Bool.noConfusion habs
      · exact heq
    simp only [List.foldl_cons, hstep]
    exact ih

/-- C5 (amended): over a walk whose order covers every symlink of the tree
and lists properly-walked paths (real names, ancestors real directories),
with a well-formed install root: (a) a first cleanup run that completes
without raising leaves only relative symlinks in the tree; and (b) when the
tree's symlinks are all relative to begin with, a second run after the
first — over any walk order — deletes nothing, rewrites nothing and leaves
the tree unchanged. (The unqualified second-run claim fails on trees with
absolute links, as the separate counterexample shows: an absolute link
verified through the host root can be deleted only by the second run.) -/
theorem c5_cleanup_amended (root : FPath) (fs : FS) (order : List FPath)
    (hroot : rootOk root = true)
    (hcover : ∀ e ∈ fs, FNode.isLink e.2 = true → e.1 ∈ order)
    (hord : ∀ p ∈ order, plainComps p = true ∧ ancestorsAreDirs fs p = true) :
    ((cleanup_jail_symlinks root fs order).failed = false →
      ∀ q raw, FS.lookup (cleanup_jail_symlinks root fs order).fs q =
        some (FNode.link raw) → rawIsAbs raw = false) ∧
    (relLinksOnly fs = true →
      ∀ order2,
        cleanup_jail_symlinks root (cleanup_jail_symlinks root fs order).fs order2 =
          { fs := (cleanup_jail_symlinks root fs order).fs,
            removed := [], rewritten := [], failed := false }) := by
  have hmemlink : ∀ q raw, FS.lookup fs q = some (FNode.link raw) → q ∈ order := by
    intro q raw hlkq
    unfold FS.lookup at hlkq
    cases hfind : fs.find? (fun e => e.1 == q) with
    | none =>
      rw [hfind] at hlkq
      exact Option.noConfusion hlkq
    | some e =>
      rw [hfind] at hlkq
      have he : e ∈ fs := List.mem_of_find?_eq_some hfind
      have he1 : e.1 = q := by
        have h6 := List.find?_some hfind
        simpa using h6
      have he2 : e.2 = FNode.link raw := by
        simpa using hlkq
      have h5 := hcover e he (by rw [he2]; rfl)
      rw [he1] at h5
      exact h5
  constructor
  · intro hdone q raw hlkq
    have h2 := cleanup_foldA root fs hroot order []
      { fs := fs, removed := [], rewritten := [], failed := false }
      (fun _ => ⟨fun q2 _ => rfl,
        fun q2 raw2 h3 _ => absurd h3 (List.not_mem_nil q2)⟩)
    have h3 := h2 hdone
    by_cases hq : q ∈ order
    · exact h3.2 q raw (by simpa using hq) hlkq
    · have h4 := h3.1 q (by simpa using hq)
      have hlkq2 : FS.lookup (order.foldl (processLink root)
          { fs := fs, removed := [], rewritten := [], failed := false }).fs q =
          some (FNode.link raw) := hlkq
      rw [h4] at hlkq2
      exact absurd (hmemlink q raw hlkq2) hq
  · intro hrelonly order2
    have hbase : invB fs []
        { fs := fs, removed := [], rewritten := [], failed := false } := by
      refine ⟨rfl, rfl, fun q => Or.inl rfl, ?_, ?_⟩
      · intro q raw hlkq
        unfold FS.lookup at hlkq
        cases hfind : fs.find? (fun e => e.1 == q) with
        | none =>
          rw [hfind] at hlkq
          exact Option.noConfusion hlkq
        | some e =>
          rw [hfind] at hlkq
          have he : e ∈ fs := List.mem_of_find?_eq_some hfind
          have he2 : e.2 = FNode.link raw := by simpa using hlkq
          have h5 := List.all_eq_true.mp hrelonly e he
          simp only [he2] at h5
          simpa using h5
      · intro q raw h3 _
        exact absurd h3 (List.not_mem_nil q)
    have h2 := cleanup_foldB root fs order []
      { fs := fs, removed := [], rewritten := [], failed := false } hord hbase
    rcases h2 with ⟨_, _, htrack, hrelS, hexS⟩
    have hexAll : ∀ q raw,
        FS.lookup (cleanup_jail_symlinks root fs order).fs q =
          some (FNode.link raw) →
        fsExists (cleanup_jail_symlinks root fs order).fs
          (q.dropLast ++ parseComps raw) = true := by
      intro q raw hlkq
      by_cases hq : q ∈ order
      · exact hexS q raw (by simpa using hq) hlkq
      · have hlkq2 : FS.lookup (order.foldl (processLink root)
            { fs := fs, removed := [], rewritten := [], failed := false }).fs q =
            some (FNode.link raw) := hlkq
        rcases htrack q with h4 | ⟨h4, _⟩
        · rw [h4] at hlkq2
          exact absurd (hmemlink q raw hlkq2) hq
        · rw [h4] at hlkq2
          exact Option.noConfusion hlkq2
    have hrelAll : ∀ q raw,
        FS.lookup (cleanup_jail_symlinks root fs order).fs q =
          some (FNode.link raw) → rawIsAbs raw = false := by
      intro q raw hlkq
      exact hrelS q raw hlkq
    exact cleanup_noop root (cleanup_jail_symlinks root fs order).fs
      hrelAll hexAll order2

/-- The install root of the c5 witness. -/
def c5WitRoot : FPath := ["r"]

/-- The tree of the c5 witness: a directory r holding a file a and a
relative symlink L to a. -/
def c5WitFs : FS :=
  [(["r"], FNode.dir), (["r", "a"], FNode.file), (["r", "L"], FNode.link ("a"))]

/-- The walk order of the c5 witness. -/
def c5WitOrder : List FPath := [["r", "L"]]

/-- Witness for the amended c5 theorem on a one-link relative tree: the
hypotheses hold and a second cleanup run after the first is a no-op. -/
theorem c5_cleanup_amended_witness :
    rootOk c5WitRoot = true ∧
    (∀ e ∈ c5WitFs, FNode.isLink e.2 = true → e.1 ∈ c5WitOrder) ∧
    (∀ p ∈ c5WitOrder, plainComps p = true ∧ ancestorsAreDirs c5WitFs p = true) ∧
    relLinksOnly c5WitFs = true ∧
    cleanup_jail_symlinks c5WitRoot
        (cleanup_jail_symlinks c5WitRoot c5WitFs c5WitOrder).fs c5WitOrder =
      { fs := (cleanup_jail_symlinks c5WitRoot c5WitFs c5WitOrder).fs,
        removed := [], rewritten := [], failed := false } :=
  ⟨by decide, by decide, by decide, by decide,
    (c5_cleanup_amended c5WitRoot c5WitFs c5WitOrder (by decide) (by decide)
      (by decide)).2 (by decide) c5WitOrder⟩

end SysrootCreator
